import Mathlib

/-!
# Mark-and-sweep collector of `src/main.c`

A shallow embedding of the collector core (`gc_init`, `gc_create_new_object`,
`gc_add_root`, `gc_remove_root`, `gc_mark`, `gc_mark_root_set`, `gc_sweep`)
and the properties proved about it.

Pointers are natural numbers, `0` being `NULL`.  The chain of `HeapNode`s is
the list of the `object` pointers it holds, front first.  Object storage is a
map from addresses to object contents; an address denotes a live object
exactly when the registry holds it (every object is allocated together with
its node and freed together with it).  Logging is not modelled.  Byte sizes
are those of LP64 (`size_t` and pointers of 64 bits, `sizeof(Object) = 16`);
they matter in `gc_create_new_object` only, whose size computation wraps.

`gc_destroy` is the one function for which the abstraction of the chain as a
list says too little: it is modelled on the chain as it lies in memory
(`RawHeap`: the head pointer, the node blocks, and which blocks are allocated).
-/

namespace GC

/-- An object pointer; `0` is `NULL`. -/
abbrev Ptr := Nat

/-- Contents of a `struct Object`.  The flexible array `references[]` and its
length `number_of_references` are one list. -/
structure Object where
  id : Int
  marked : Bool
  references : List Ptr
deriving DecidableEq, Repr

/-- The out-degree stored in the object header. -/
def Object.number_of_references (o : Object) : Nat := o.references.length

/-- The `RootSet` struct: `items` is the backing array, of which the slots
`0 .. count - 1` are the entries. -/
structure RootSet where
  items : List Ptr
  count : Nat
  capacity : Nat
deriving DecidableEq, Repr

/-- The global `gc_heap` together with the object storage its registry owns:
`head` is the node chain, `objects` the contents found behind each pointer. -/
structure Heap where
  head : List Ptr
  roots : RootSet
  objects : Ptr → Object

/-- The entries of the Root Set: `items[0] .. items[count - 1]`. -/
def RootSet.entries (rs : RootSet) : List Ptr := rs.items.take rs.count

/-- The backing array has `capacity` slots, of which `count` are in use. -/
def RootSet.Valid (rs : RootSet) : Prop :=
  rs.items.length = rs.capacity ∧ rs.count ≤ rs.capacity

instance (rs : RootSet) : Decidable rs.Valid := by
  unfold RootSet.Valid; infer_instance

/-- Result of a run of the recursive marker. -/
inductive Outcome (α : Type) where
  /-- the call returned -/
  | done : α → Outcome α
  /-- a pointer that is not an object of the registry was dereferenced -/
  | fault : Outcome α
  /-- the recursion budget ran out -/
  | timeout : Outcome α
deriving DecidableEq

/-- Model of `gc_init`: empty registry, empty Root Set; no object storage is in use. -/
def gc_init : Heap :=
  { head := []
    roots := { items := [], count := 0, capacity := 0 }
    objects := fun _ => { id := 0, marked := false, references := [] } }

/-- Number of values of `size_t` (LP64: 64 bits); sizes are computed modulo it. -/
def SIZE_MODULUS : Nat := 18446744073709551616

/-- The value of `sizeof(Object)` on LP64: `int`, `bool`, padding, `size_t`; the
slots start at this offset. -/
def sizeof_Object : Nat := 16

/-- The value of `sizeof(Object *)` on LP64. -/
def sizeof_pointer : Nat := 8

/-- What `gc_create_new_object` leaves in the block `malloc` returned for the
object: the size requested, the three header fields, and the slots that lie
inside the block. -/
structure Block where
  size : Nat
  id : Int
  marked : Bool
  number_of_references : Nat
  slots : List Ptr
deriving DecidableEq, Repr

/-- The block of `gc_create_new_object(&p, id, num_references)`: `total` and the
`memset` length are computed in `size_t`, so they wrap; `malloc(total)`
succeeds, `memset` zeroes the slots, the header receives `id`, `false` and
`num_references`.  The block has room for `(total - sizeof(Object)) /
sizeof(Object *)` slots, whatever the header says. -/
def create_block (id : Int) (num_references : Nat) : Block :=
  let bytes := (sizeof_pointer * num_references) % SIZE_MODULUS
  let total := (sizeof_Object + bytes) % SIZE_MODULUS
  { size := total
    id := id
    marked := false
    number_of_references := num_references
    slots := List.replicate ((total - sizeof_Object) / sizeof_pointer) 0 }

/-- The size computation of `gc_create_new_object` does not wrap. -/
def slots_fit (num_references : Nat) : Prop :=
  sizeof_Object + sizeof_pointer * num_references < SIZE_MODULUS

instance (n : Nat) : Decidable (slots_fit n) := by unfold slots_fit; infer_instance

/-- The object a block holds when its slots are the ones its header announces. -/
def Block.object (b : Block) : Object :=
  { id := b.id, marked := b.marked, references := b.slots }

/-- The linking at the end of `gc_create_new_object`: the new node, holding the
object at `o`, goes in front of the chain. -/
def link_object (h : Heap) (o : Ptr) (obj : Object) : Heap :=
  { h with head := o :: h.head, objects := Function.update h.objects o obj }

/-- Model of `gc_create_new_object` when both allocations succeed; `o` is the
address `malloc` returned for the object.  When the block holds the slots its
header announces, the object is registered in front of the chain.  When the
size computation wrapped it does not: the call leaves a header without its slot
storage (`create_block`), which is no object of this model, and there is no
result. -/
def gc_create_new_object (h : Heap) (o : Ptr) (id : Int) (num_references : Nat) :
    Option Heap :=
  let b := create_block id num_references
  if b.slots.length = b.number_of_references then some (link_object h o b.object) else none

/-- The heap after a call of `gc_create_new_object` that has a result, the heap
as it was otherwise; used to build the example heaps. -/
def created (h : Heap) (o : Ptr) (id : Int) (num_references : Nat) : Heap :=
  (gc_create_new_object h o id num_references).getD h

/-- The caller-side assignment `obj->references[i] = target` (as in `main`). -/
def set_edge (h : Heap) (obj : Ptr) (i : Nat) (target : Ptr) : Heap :=
  { h with
    objects := Function.update h.objects obj
      { h.objects obj with references := (h.objects obj).references.set i target } }

/-- Model of `realloc` of the item array to `n` slots: the old contents are kept, fresh
slots are modelled as `NULL` (they are written before they are read). -/
def realloc_items (items : List Ptr) (n : Nat) : List Ptr :=
  items.take n ++ List.replicate (n - items.length) 0

/-- Model of `gc_add_root` (allocation succeeding, `size_t` unbounded). -/
def gc_add_root (h : Heap) (obj : Ptr) : Heap :=
  if obj = 0 then h
  else if obj ∈ h.roots.entries then h
  else
    let rs : RootSet :=
      if h.roots.count = h.roots.capacity then
        let new_capacity := if h.roots.capacity = 0 then 4 else h.roots.capacity * 2
        { items := realloc_items h.roots.items new_capacity
          count := h.roots.count
          capacity := new_capacity }
      else h.roots
    { h with roots := { rs with items := rs.items.set rs.count obj, count := rs.count + 1 } }

/-- Model of `gc_remove_root`: the first slot `i < count` holding `obj` receives
`items[count - 1]`, and `count` drops by one; no such slot, no change. -/
def gc_remove_root (h : Heap) (obj : Ptr) : Heap :=
  let i := h.roots.entries.indexOf obj
  if i < h.roots.entries.length then
    { h with
      roots := { h.roots with
        items := h.roots.items.set i (h.roots.items.getD (h.roots.count - 1) 0)
        count := h.roots.count - 1 } }
  else h

/-- The store `obj->marked = true`. -/
def set_marked (h : Heap) (obj : Ptr) : Heap :=
  { h with objects := Function.update h.objects obj { h.objects obj with marked := true } }

/-- The loop `for i < number_of_references: if (references[i] != NULL)
gc_mark(references[i])`, over the slots in order, `mark` being the recursive
call.  The marker writes mark flags only, so the slots are those read when the
loop is entered. -/
def mark_refs (mark : Heap → Ptr → Outcome Heap) : Heap → List Ptr → Outcome Heap
  | h, [] => .done h
  | h, r :: rs =>
    if r = 0 then mark_refs mark h rs
    else
      match mark h r with
      | .done h1 => mark_refs mark h1 rs
      | .fault => .fault
      | .timeout => .timeout

/-- Model of `gc_mark` with a bound `fuel` on the recursion depth.  Reading through a
non-null pointer that is not an object of the registry is a `fault`. -/
def gc_markF : Nat → Heap → Ptr → Outcome Heap
  | 0, _, _ => .timeout
  | fuel + 1, h, obj =>
    if obj = 0 then .done h
    else if obj ∈ h.head then
      if (h.objects obj).marked then .done h
      else mark_refs (gc_markF fuel) (set_marked h obj) (h.objects obj).references
    else .fault

/-- Model of `gc_mark`: the recursion nests at most once per registered
object, so the registry length plus one is a sufficient depth
(`gc_markF_no_timeout`, `gc_mark_eq_fuel`). -/
def gc_mark (h : Heap) (obj : Ptr) : Outcome Heap :=
  gc_markF (h.head.length + 1) h obj

/-- The loop of `gc_mark_root_set` over a list of root entries. -/
def mark_roots : Heap → List Ptr → Outcome Heap
  | h, [] => .done h
  | h, r :: rs =>
    match gc_mark h r with
    | .done h1 => mark_roots h1 rs
    | .fault => .fault
    | .timeout => .timeout

/-- Model of `gc_mark_root_set`: `gc_mark` on `items[0] .. items[count - 1]` in order. -/
def gc_mark_root_set (h : Heap) : Outcome Heap :=
  mark_roots h h.roots.entries

/-- What the sweep stores into an unmarked object before freeing it: every
slot is set to `NULL`. -/
def clear_references (o : Object) : Object :=
  { o with references := o.references.map (fun _ => 0) }

/-- The loop of `gc_sweep` along the chain: an unmarked object is unlinked (its
slots cleared, then freed), a marked one has its flag reset and stays. -/
def sweep_chain : (Ptr → Object) → List Ptr → List Ptr × (Ptr → Object)
  | objects, [] => ([], objects)
  | objects, p :: rest =>
    if (objects p).marked then
      let r := sweep_chain (Function.update objects p { objects p with marked := false }) rest
      (p :: r.1, r.2)
    else
      sweep_chain (Function.update objects p (clear_references (objects p))) rest

/-- Model of `gc_sweep`: the loop run from `gc_heap.head`; the Root Set is not
touched. -/
def gc_sweep (h : Heap) : Heap :=
  { h with
    head := (sweep_chain h.objects h.head).1
    objects := (sweep_chain h.objects h.head).2 }

/-- One collection cycle, as `main` runs it: `gc_mark_root_set(); gc_sweep();`. -/
def collect (h : Heap) : Outcome Heap :=
  match gc_mark_root_set h with
  | .done h1 => .done (gc_sweep h1)
  | .fault => .fault
  | .timeout => .timeout

/-- The instrumented marker: `gc_markF` that also returns, in order, the
objects whose slots it expanded (one per "Marked Object" log line). -/
def mark_refsT (mark : Heap → Ptr → Outcome (Heap × List Ptr)) :
    Heap → List Ptr → Outcome (Heap × List Ptr)
  | h, [] => .done (h, [])
  | h, r :: rs =>
    if r = 0 then mark_refsT mark h rs
    else
      match mark h r with
      | .done (h1, t1) =>
        match mark_refsT mark h1 rs with
        | .done (h2, t2) => .done (h2, t1 ++ t2)
        | .fault => .fault
        | .timeout => .timeout
      | .fault => .fault
      | .timeout => .timeout

/-- See `mark_refsT`. -/
def gc_markT : Nat → Heap → Ptr → Outcome (Heap × List Ptr)
  | 0, _, _ => .timeout
  | fuel + 1, h, obj =>
    if obj = 0 then .done (h, [])
    else if obj ∈ h.head then
      if (h.objects obj).marked then .done (h, [])
      else
        match mark_refsT (gc_markT fuel) (set_marked h obj) (h.objects obj).references with
        | .done (h1, t) => .done (h1, obj :: t)
        | .fault => .fault
        | .timeout => .timeout
    else .fault

/-- The outcome with its result transformed by `f`. -/
def Outcome.map {α β : Type} (f : α → β) : Outcome α → Outcome β
  | .done a => .done (f a)
  | .fault => .fault
  | .timeout => .timeout

/-! ## Graph vocabulary -/

/-- An edge `a → b`: `b` is a non-empty slot of the registered object `a`. -/
def Edge (h : Heap) (a b : Ptr) : Prop :=
  a ∈ h.head ∧ b ≠ 0 ∧ b ∈ (h.objects a).references

instance (h : Heap) (a b : Ptr) : Decidable (Edge h a b) := by
  unfold Edge; infer_instance

/-- The object `x` is reached from `a` by following zero or more edges. -/
def Reach (h : Heap) (a x : Ptr) : Prop := Relation.ReflTransGen (Edge h) a x

/-- The object `x` is reachable from some Root Set entry. -/
def FromRoots (h : Heap) (x : Ptr) : Prop := ∃ r ∈ h.roots.entries, Reach h r x

/-- Every registered object is unmarked. -/
def AllUnmarked (h : Heap) : Prop := ∀ p ∈ h.head, (h.objects p).marked = false

/-- Every Root Set entry refers to a registered object. -/
def RootsRegistered (h : Heap) : Prop := ∀ r ∈ h.roots.entries, r ≠ 0 ∧ r ∈ h.head

/-- Every non-empty edge slot of a registered object refers to a registered
object. -/
def EdgesRegistered (h : Heap) : Prop :=
  ∀ p ∈ h.head, ∀ q ∈ (h.objects p).references, q ≠ 0 → q ∈ h.head

instance (h : Heap) : Decidable (AllUnmarked h) := by unfold AllUnmarked; infer_instance
instance (h : Heap) : Decidable (RootsRegistered h) := by unfold RootsRegistered; infer_instance
instance (h : Heap) : Decidable (EdgesRegistered h) := by unfold EdgesRegistered; infer_instance

/-- The heap state between two cycles: all objects unmarked, roots and edges
refer to registered objects. -/
structure WellFormed (h : Heap) : Prop where
  unmarked : AllUnmarked h
  roots : RootsRegistered h
  edges : EdgesRegistered h

/-- Number of registered objects that are unmarked. -/
def unmarked_count (h : Heap) : Nat :=
  (h.head.toFinset.filter (fun p => (h.objects p).marked = false)).card

/-- The heap `h2` arises from `h` by setting mark flags of registered objects:
same registry, same Root Set, every object either unchanged or only marked. -/
structure MarkExt (h h2 : Heap) : Prop where
  head : h2.head = h.head
  roots : h2.roots = h.roots
  objects : ∀ p, h2.objects p = h.objects p ∨
    (p ∈ h.head ∧ h2.objects p = { h.objects p with marked := true })

/-- A step of a white path: an edge between two objects unmarked in `h`. -/
def WEdge (h : Heap) (a b : Ptr) : Prop :=
  (h.objects a).marked = false ∧ Edge h a b ∧ (h.objects b).marked = false

/-- A path from the registered, unmarked object `a` to `x` all of whose nodes
are unmarked in `h`. -/
def White (h : Heap) (a x : Ptr) : Prop :=
  a ≠ 0 ∧ a ∈ h.head ∧ (h.objects a).marked = false ∧ Relation.ReflTransGen (WEdge h) a x

/-- What a returned call `gc_mark(obj)` taking `h` to `h2` has done. -/
structure MarkSpec (h : Heap) (obj : Ptr) (h2 : Heap) : Prop where
  ext : MarkExt h h2
  self : obj ≠ 0 → (h2.objects obj).marked = true
  closed : ∀ x, (h2.objects x).marked = true → (h.objects x).marked = false →
    ∀ y, Edge h x y → (h2.objects y).marked = true
  sound : ∀ x, (h2.objects x).marked = true → (h.objects x).marked = false → White h obj x

/-- What a returned loop of marker calls over the slots `rs` has done. -/
structure LoopSpec (h : Heap) (rs : List Ptr) (h2 : Heap) : Prop where
  ext : MarkExt h h2
  each : ∀ r ∈ rs, r ≠ 0 → (h2.objects r).marked = true
  closed : ∀ x, (h2.objects x).marked = true → (h.objects x).marked = false →
    ∀ y, Edge h x y → (h2.objects y).marked = true
  sound : ∀ x, (h2.objects x).marked = true → (h.objects x).marked = false →
    ∃ r ∈ rs, r ≠ 0 ∧ White h r x

/-- What a returned instrumented call has done: marks only, and the objects it
expanded are pairwise distinct, each unmarked before and marked after. -/
structure TraceSpec (h h2 : Heap) (t : List Ptr) : Prop where
  ext : MarkExt h h2
  nodup : t.Nodup
  fresh : ∀ p ∈ t, (h.objects p).marked = false ∧ (h2.objects p).marked = true

/-- A heap with a reference cycle: `x` and `y` refer to each other, `z` is
apart; `x` is the only root. -/
def cycle_heap (x y z : Ptr) : Heap :=
  let h := created gc_init x 1 1
  let h := created h y 2 1
  let h := created h z 3 0
  let h := set_edge h x 0 y
  let h := set_edge h y 0 x
  gc_add_root h x

/-- The heap `main` builds before its first collection; `a b c d` are the
addresses of the four objects. -/
def main_heap (a b c d : Ptr) : Heap :=
  let h := created gc_init a 1 2
  let h := created h b 2 1
  let h := created h c 3 0
  let h := created h d 4 0
  let h := set_edge h a 0 b
  let h := set_edge h a 1 c
  let h := set_edge h b 0 d
  gc_add_root h a

/-- The heap of `main` with `b` and `c` added as roots after `a`. -/
def three_roots (a b c d : Ptr) : Heap :=
  gc_add_root (gc_add_root (main_heap a b c d) b) c

/-- The scenario of `main` from `gc_init` to the second collection: the
registry after the first collection and after the collection that follows
`gc_remove_root(a)`. -/
def main_run (a b c d : Ptr) : Outcome (List Ptr × List Ptr) :=
  match collect (main_heap a b c d) with
  | .done h1 =>
    match collect (gc_remove_root h1 a) with
    | .done h2 => .done (h1.head, h2.head)
    | .fault => .fault
    | .timeout => .timeout
  | .fault => .fault
  | .timeout => .timeout

/-! ## Sequences of operations -/

/-- A call of the collector's interface, or an edge assignment by the caller. -/
inductive Op where
  /-- the call `gc_create_new_object(&p, id, n)`, `malloc` returning `o` -/
  | create (o : Ptr) (id : Int) (n : Nat)
  /-- the assignment `obj->references[i] = target` -/
  | set_edge (obj : Ptr) (i : Nat) (target : Ptr)
  /-- the call `gc_add_root(obj)` -/
  | add_root (obj : Ptr)
  /-- the call `gc_remove_root(obj)` -/
  | remove_root (obj : Ptr)
  /-- the call `gc_mark_root_set()` -/
  | mark_root_set
  /-- the call `gc_sweep()` -/
  | sweep
  /-- the cycle `gc_mark_root_set(); gc_sweep();` -/
  | collect
deriving DecidableEq

/-- The state after an operation that returns.  `malloc` hands out a non-null
address that is not in use; a creation whose size computation wrapped, and a
marker run that faults, have no successor state; an edge assignment goes to a
slot of a registered object. -/
def step (h : Heap) : Op → Option Heap
  | .create o id n =>
    if o ≠ 0 ∧ o ∉ h.head then gc_create_new_object h o id n else none
  | .set_edge obj i target =>
    if obj ∈ h.head ∧ i < (h.objects obj).number_of_references then
      some (set_edge h obj i target)
    else none
  | .add_root obj => some (gc_add_root h obj)
  | .remove_root obj => some (gc_remove_root h obj)
  | .mark_root_set =>
    match gc_mark_root_set h with
    | .done h2 => some h2
    | .fault => none
    | .timeout => none
  | .sweep => some (gc_sweep h)
  | .collect =>
    match collect h with
    | .done h2 => some h2
    | .fault => none
    | .timeout => none

/-- The states reached from `gc_init` by operations that `ok` admits. -/
inductive Reachable (ok : Heap → Op → Prop) : Heap → Prop where
  | init : Reachable ok gc_init
  | next {h h2 : Heap} (op : Op) : Reachable ok h → ok h op → step h op = some h2 →
      Reachable ok h2

/-- The operations of the Root Set invariant: creation, the two Root Set calls
and the two phases. -/
def root_set_op (_ : Heap) : Op → Prop
  | .create _ _ _ => True
  | .add_root _ => True
  | .remove_root _ => True
  | .mark_root_set => True
  | .sweep => True
  | _ => False

/-- The operations between cycles: creation, edge assignments, the two Root
Set calls and complete cycles. -/
def between_cycles_op (_ : Heap) : Op → Prop
  | .create _ _ _ => True
  | .set_edge _ _ _ => True
  | .add_root _ => True
  | .remove_root _ => True
  | .collect => True
  | _ => False

/-- The ids of the registered objects, in registry order. -/
def registry_ids (h : Heap) : List Int := h.head.map (fun p => (h.objects p).id)

/-- The ids of the registered objects are pairwise distinct. -/
def IdsDistinct (h : Heap) : Prop := (registry_ids h).Nodup

instance (h : Heap) : Decidable (IdsDistinct h) := by unfold IdsDistinct; infer_instance

/-- The operations of the identifier claim: creation with any id, the two
Root Set calls and complete cycles. -/
def any_id_op (_ : Heap) : Op → Prop
  | .create _ _ _ => True
  | .add_root _ => True
  | .remove_root _ => True
  | .collect => True
  | _ => False

/-- As `any_id_op`, creation taking an id that no registered object has. -/
def fresh_id_op (h : Heap) : Op → Prop
  | .create _ id _ => id ∉ registry_ids h
  | .add_root _ => True
  | .remove_root _ => True
  | .collect => True
  | _ => False

/-- The Root Set invariant: the array has its slots, no entry is repeated, no
entry is null. -/
structure RootSetInv (h : Heap) : Prop where
  valid : h.roots.Valid
  nodup : h.roots.entries.Nodup
  nonnull : (0 : Ptr) ∉ h.roots.entries

/-- Two objects with the same id, created one after the other. -/
def twin_ids : Heap :=
  created (created gc_init 1 7 0) 2 7 0

/-! ## Teardown on the chain as it lies in memory -/

/-- Contents of a `struct HeapNode`. -/
structure HeapNode where
  object : Ptr
  next : Ptr
deriving DecidableEq, Repr

/-- The memory `gc_destroy` works on: `gc_heap.head` and `gc_heap.roots`, the
contents of the node blocks, and which node and object blocks are allocated. -/
structure RawHeap where
  head : Ptr
  roots : RootSet
  nodes : Ptr → HeapNode
  live_nodes : List Ptr
  live_objects : List Ptr

/-- The state `gc_init` leaves, on the raw memory. -/
def raw_init : RawHeap :=
  { head := 0
    roots := { items := [], count := 0, capacity := 0 }
    nodes := fun _ => { object := 0, next := 0 }
    live_nodes := []
    live_objects := [] }

/-- The linking done by `gc_create_new_object` on the raw memory: `o` and `node`
are the addresses `malloc` returned for the object and for its node. -/
def raw_create (s : RawHeap) (o node : Ptr) : RawHeap :=
  { s with
    head := node
    nodes := Function.update s.nodes node { object := o, next := s.head }
    live_nodes := node :: s.live_nodes
    live_objects := o :: s.live_objects }

/-- The loop of `gc_destroy` from `current`: each node and its object are
freed.  Reading a node that is not allocated is a `fault`. -/
def destroy_chain : Nat → RawHeap → Ptr → Outcome RawHeap
  | 0, _, _ => .timeout
  | fuel + 1, s, current =>
    if current = 0 then .done s
    else if current ∈ s.live_nodes then
      destroy_chain fuel
        { s with
          live_objects := s.live_objects.erase (s.nodes current).object
          live_nodes := s.live_nodes.erase current }
        (s.nodes current).next
    else .fault

/-- Model of `gc_destroy`: the chain is freed from `gc_heap.head`, then the item
array is freed and `roots.items`, `roots.count`, `roots.capacity` are reset.
`gc_heap.head` is not assigned. -/
def gc_destroy (s : RawHeap) : Outcome RawHeap :=
  match destroy_chain (s.live_nodes.length + 1) s s.head with
  | .done s1 => .done { s1 with roots := { items := [], count := 0, capacity := 0 } }
  | .fault => .fault
  | .timeout => .timeout

/-- The iteration over the registry as `gc_print_heap_state` does it: the
objects met along the chain from `current`. -/
def iterate_chain : Nat → RawHeap → Ptr → Outcome (List Ptr)
  | 0, _, _ => .timeout
  | fuel + 1, s, current =>
    if current = 0 then .done []
    else if current ∈ s.live_nodes then
      match iterate_chain fuel s (s.nodes current).next with
      | .done l => .done ((s.nodes current).object :: l)
      | .fault => .fault
      | .timeout => .timeout
    else .fault

/-- The raw memory after `gc_init(); gc_create_new_object(&a, 1, 0);`, the
object at address 1, its node at address 100. -/
def one_object_raw : RawHeap := raw_create raw_init 1 100

/-! ## Frame of the marker -/

theorem MarkExt.refl (h : Heap) : MarkExt h h :=
  ⟨rfl, rfl, fun _ => Or.inl rfl⟩

theorem MarkExt.trans {h h1 h2 : Heap} (a : MarkExt h h1) (b : MarkExt h1 h2) :
    MarkExt h h2 := by
  refine ⟨b.head.trans a.head, b.roots.trans a.roots, fun p => ?_⟩
  rcases a.objects p with e1 | ⟨m1, e1⟩ <;> rcases b.objects p with e2 | ⟨m2, e2⟩
  · exact Or.inl (e2.trans e1)
  · exact Or.inr ⟨a.head ▸ m2, by rw [e2, e1]⟩
  · exact Or.inr ⟨m1, by rw [e2, e1]⟩
  · exact Or.inr ⟨m1, by rw [e2, e1]⟩

theorem MarkExt.references {h h2 : Heap} (a : MarkExt h h2) (p : Ptr) :
    (h2.objects p).references = (h.objects p).references := by
  rcases a.objects p with e | ⟨_, e⟩ <;> rw [e]

theorem MarkExt.id_eq {h h2 : Heap} (a : MarkExt h h2) (p : Ptr) :
    (h2.objects p).id = (h.objects p).id := by
  rcases a.objects p with e | ⟨_, e⟩ <;> rw [e]

theorem MarkExt.marks_mono {h h2 : Heap} (a : MarkExt h h2) {p : Ptr}
    (m : (h.objects p).marked = true) : (h2.objects p).marked = true := by
  rcases a.objects p with e | ⟨_, e⟩ <;> rw [e]
  exact m

theorem MarkExt.unmarked_of {h h2 : Heap} (a : MarkExt h h2) {p : Ptr}
    (m : (h2.objects p).marked = false) : (h.objects p).marked = false := by
  cases hm : (h.objects p).marked with
  | false => rfl
  | true => rw [a.marks_mono hm] at m; exact absurd m (by decide)

theorem MarkExt.registered_of_new {h h2 : Heap} (a : MarkExt h h2) {p : Ptr}
    (m2 : (h2.objects p).marked = true) (m : (h.objects p).marked = false) : p ∈ h.head := by
  rcases a.objects p with e | ⟨r, _⟩
  · rw [e, m] at m2; exact absurd m2 (by decide)
  · exact r

theorem MarkExt.edge_iff {h h2 : Heap} (a : MarkExt h h2) (x y : Ptr) :
    Edge h2 x y ↔ Edge h x y := by
  unfold Edge
  rw [a.head, a.references]

theorem MarkExt.edges_registered {h h2 : Heap} (a : MarkExt h h2)
    (e : EdgesRegistered h) : EdgesRegistered h2 := by
  intro p hp q hq hq0
  rw [a.head] at hp ⊢
  rw [a.references] at hq
  exact e p hp q hq hq0

theorem MarkExt.set_marked (h : Heap) {obj : Ptr} (r : obj ∈ h.head) :
    MarkExt h (set_marked h obj) := by
  refine ⟨rfl, rfl, fun p => ?_⟩
  by_cases hp : p = obj
  · subst hp
    exact Or.inr ⟨r, by simp [GC.set_marked]⟩
  · exact Or.inl (by simp [GC.set_marked, Function.update_noteq hp])

theorem MarkExt.unmarked_count_le {h h2 : Heap} (a : MarkExt h h2) :
    unmarked_count h2 ≤ unmarked_count h := by
  unfold unmarked_count
  rw [a.head]
  apply Finset.card_le_card
  intro p hp
  rw [Finset.mem_filter] at hp ⊢
  exact ⟨hp.1, a.unmarked_of hp.2⟩

theorem unmarked_count_set_marked (h : Heap) {obj : Ptr} (r : obj ∈ h.head)
    (m : (h.objects obj).marked = false) :
    unmarked_count (set_marked h obj) < unmarked_count h := by
  unfold unmarked_count
  apply Finset.card_lt_card
  rw [Finset.ssubset_iff_of_subset]
  · refine ⟨obj, ?_, ?_⟩
    · rw [Finset.mem_filter]; exact ⟨List.mem_toFinset.mpr r, m⟩
    · rw [Finset.mem_filter]; simp [GC.set_marked]
  · intro p hp
    rw [Finset.mem_filter] at hp ⊢
    exact ⟨hp.1, (MarkExt.set_marked h r).unmarked_of hp.2⟩

theorem unmarked_count_le_length (h : Heap) : unmarked_count h ≤ h.head.length := by
  unfold unmarked_count
  exact (Finset.card_filter_le _ _).trans (List.toFinset_card_le _)

theorem White.of_ext {h h1 : Heap} (a : MarkExt h h1) {r x : Ptr} (w : White h1 r x) :
    White h r x := by
  obtain ⟨r0, rh, rm, p⟩ := w
  refine ⟨r0, a.head ▸ rh, a.unmarked_of rm, ?_⟩
  refine Relation.ReflTransGen.mono ?_ p
  intro u v ⟨mu, e, mv⟩
  exact ⟨a.unmarked_of mu, (a.edge_iff u v).mp e, a.unmarked_of mv⟩

theorem White.reach {h : Heap} {r x : Ptr} (w : White h r x) : Reach h r x :=
  Relation.ReflTransGen.mono (fun _ _ e => e.2.1) w.2.2.2

/-! ## What a marker call does -/

theorem mark_refs_spec (g : Heap → Ptr → Outcome Heap)
    (hg : ∀ h r h2, g h r = .done h2 → MarkSpec h r h2) :
    ∀ (rs : List Ptr) (h h2 : Heap), mark_refs g h rs = .done h2 → LoopSpec h rs h2 := by
  intro rs
  induction rs with
  | nil =>
    intro h h2 e
    simp only [mark_refs, Outcome.done.injEq] at e
    subst e
    exact ⟨MarkExt.refl h, fun r hr => absurd hr (List.not_mem_nil r),
      fun x m2 m => by rw [m] at m2; exact absurd m2 (by decide),
      fun x m2 m => by rw [m] at m2; exact absurd m2 (by decide)⟩
  | cons r rs ih =>
    intro h h2 e
    by_cases r0 : r = 0
    · simp only [mark_refs, r0, if_true] at e
      have L := ih h h2 e
      refine ⟨L.ext, ?_, L.closed, ?_⟩
      · intro q hq hq0
        rcases List.mem_cons.mp hq with hqr | hqr
        · exact absurd (hqr.trans r0) hq0
        · exact L.each q hqr hq0
      · intro x m2 m
        obtain ⟨q, hq, hq0, w⟩ := L.sound x m2 m
        exact ⟨q, List.mem_cons_of_mem _ hq, hq0, w⟩
    · simp only [mark_refs, r0, if_false] at e
      cases hgr : g h r with
      | fault => rw [hgr] at e; exact absurd e (by simp)
      | timeout => rw [hgr] at e; exact absurd e (by simp)
      | done h1 =>
        rw [hgr] at e
        simp only at e
        have S := hg h r h1 hgr
        have L := ih h1 h2 e
        refine ⟨S.ext.trans L.ext, ?_, ?_, ?_⟩
        · intro q hq hq0
          rcases List.mem_cons.mp hq with hqr | hqr
          · subst hqr
            exact L.ext.marks_mono (S.self r0)
          · exact L.each q hqr hq0
        · intro x m2 m y exy
          cases m1 : (h1.objects x).marked with
          | true => exact L.ext.marks_mono (S.closed x m1 m y exy)
          | false => exact L.closed x m2 m1 y ((S.ext.edge_iff x y).mpr exy)
        · intro x m2 m
          cases m1 : (h1.objects x).marked with
          | true => exact ⟨r, List.mem_cons_self _ _, r0, S.sound x m1 m⟩
          | false =>
            obtain ⟨q, hq, hq0, w⟩ := L.sound x m2 m1
            exact ⟨q, List.mem_cons_of_mem _ hq, hq0, w.of_ext S.ext⟩

theorem gc_markF_spec : ∀ (f : Nat) (h : Heap) (obj : Ptr) (h2 : Heap),
    gc_markF f h obj = .done h2 → MarkSpec h obj h2 := by
  intro f
  induction f with
  | zero => intro h obj h2 e; simp [gc_markF] at e
  | succ f ih =>
    intro h obj h2 e
    have triv : ∀ (k : Heap), (obj ≠ 0 → (k.objects obj).marked = true) → MarkSpec k obj k :=
      fun k hk => ⟨MarkExt.refl k, hk,
        fun x m2 m => by rw [m] at m2; exact absurd m2 (by decide),
        fun x m2 m => by rw [m] at m2; exact absurd m2 (by decide)⟩
    by_cases o0 : obj = 0
    · simp only [gc_markF, o0, if_true, Outcome.done.injEq] at e
      subst e
      exact triv h (fun c => absurd o0 c)
    · by_cases reg : obj ∈ h.head
      · cases mk : (h.objects obj).marked with
        | true =>
          simp only [gc_markF, o0, reg, mk, if_true, if_false, Outcome.done.injEq] at e
          subst e
          exact triv h (fun _ => mk)
        | false =>
          simp only [gc_markF, o0, reg, mk, if_true, if_false] at e
          have L := mark_refs_spec (gc_markF f) ih _ _ _ e
          have E0 := MarkExt.set_marked h reg
          have self0 : ((set_marked h obj).objects obj).marked = true := by
            simp [set_marked]
          have other : ∀ x, x ≠ obj → (set_marked h obj).objects x = h.objects x := by
            intro x hx
            simp [set_marked, Function.update_noteq hx]
          refine ⟨E0.trans L.ext, fun _ => L.ext.marks_mono self0, ?_, ?_⟩
          · intro x m2 m y exy
            by_cases hx : x = obj
            · subst hx
              exact L.each y exy.2.2 exy.2.1
            · have m0 : ((set_marked h obj).objects x).marked = false := by
                rw [other x hx]; exact m
              exact L.closed x m2 m0 y ((E0.edge_iff x y).mpr exy)
          · intro x m2 m
            by_cases hx : x = obj
            · subst hx
              exact ⟨o0, reg, mk, Relation.ReflTransGen.refl⟩
            · have m0 : ((set_marked h obj).objects x).marked = false := by
                rw [other x hx]; exact m
              obtain ⟨q, hq, hq0, w⟩ := L.sound x m2 m0
              have w1 := w.of_ext E0
              exact ⟨o0, reg, mk,
                Relation.ReflTransGen.head ⟨mk, ⟨reg, hq0, hq⟩, w1.2.2.1⟩ w1.2.2.2⟩
      · simp [gc_markF, o0, reg] at e

theorem gc_mark_spec (h : Heap) (obj : Ptr) (h2 : Heap) (e : gc_mark h obj = .done h2) :
    MarkSpec h obj h2 :=
  gc_markF_spec _ h obj h2 e

theorem mark_roots_eq (h : Heap) (rs : List Ptr) :
    mark_roots h rs = mark_refs gc_mark h rs := by
  induction rs generalizing h with
  | nil => rfl
  | cons r rs ih =>
    by_cases r0 : r = 0
    · subst r0
      have : gc_mark h 0 = .done h := by simp [gc_mark, gc_markF]
      simp only [mark_roots, mark_refs, this, if_true]
      exact ih h
    · simp only [mark_roots, mark_refs, r0, if_false]
      cases gc_mark h r with
      | done h1 => exact ih h1
      | fault => rfl
      | timeout => rfl

theorem gc_mark_root_set_spec (h h2 : Heap) (e : gc_mark_root_set h = .done h2) :
    LoopSpec h h.roots.entries h2 := by
  unfold gc_mark_root_set at e
  rw [mark_roots_eq] at e
  exact mark_refs_spec gc_mark gc_mark_spec _ _ _ e

/-! ## Termination of the marker -/

theorem mark_refs_no_timeout (g : Heap → Ptr → Outcome Heap) (n : Nat)
    (hspec : ∀ h r h2, g h r = .done h2 → MarkExt h h2)
    (hg : ∀ h r, unmarked_count h ≤ n → g h r ≠ .timeout) :
    ∀ (rs : List Ptr) (h : Heap), unmarked_count h ≤ n → mark_refs g h rs ≠ .timeout := by
  intro rs
  induction rs with
  | nil => intro h _; simp [mark_refs]
  | cons r rs ih =>
    intro h hn
    by_cases r0 : r = 0
    · simp only [mark_refs, r0, if_true]
      exact ih h hn
    · simp only [mark_refs, r0, if_false]
      cases hgr : g h r with
      | done h1 => exact ih h1 ((hspec h r h1 hgr).unmarked_count_le.trans hn)
      | fault => simp
      | timeout => exact absurd hgr (hg h r hn)

theorem gc_markF_no_timeout : ∀ (f : Nat) (h : Heap) (obj : Ptr),
    unmarked_count h < f → gc_markF f h obj ≠ .timeout := by
  intro f
  induction f with
  | zero => intro h obj hf; exact absurd hf (Nat.not_lt_zero _)
  | succ f ih =>
    intro h obj hf
    by_cases o0 : obj = 0
    · simp [gc_markF, o0]
    · by_cases reg : obj ∈ h.head
      · cases mk : (h.objects obj).marked with
        | true => simp [gc_markF, o0, reg, mk]
        | false =>
          simp only [gc_markF, o0, reg, mk, if_true, if_false]
          have lt := unmarked_count_set_marked h reg mk
          refine mark_refs_no_timeout (gc_markF f) (unmarked_count (set_marked h obj))
            (fun a r b e => (gc_markF_spec f a r b e).ext) ?_ _ _ (le_refl _)
          intro a r ha
          exact ih a r (by omega)
      · simp [gc_markF, o0, reg]

theorem mark_refs_done (g : Heap → Ptr → Outcome Heap) (n : Nat)
    (hspec : ∀ h r h2, g h r = .done h2 → MarkExt h h2)
    (hg : ∀ h r, unmarked_count h ≤ n → EdgesRegistered h → r ∈ h.head →
      ∃ h2, g h r = .done h2) :
    ∀ (rs : List Ptr) (h : Heap), unmarked_count h ≤ n → EdgesRegistered h →
      (∀ r ∈ rs, r ≠ 0 → r ∈ h.head) → ∃ h2, mark_refs g h rs = .done h2 := by
  intro rs
  induction rs with
  | nil => intro h _ _ _; exact ⟨h, rfl⟩
  | cons r rs ih =>
    intro h hn he hr
    by_cases r0 : r = 0
    · simp only [mark_refs, r0, if_true]
      exact ih h hn he (fun q hq => hr q (List.mem_cons_of_mem _ hq))
    · simp only [mark_refs, r0, if_false]
      obtain ⟨h1, e1⟩ := hg h r hn he (hr r (List.mem_cons_self _ _) r0)
      rw [e1]
      have E := hspec h r h1 e1
      exact ih h1 (E.unmarked_count_le.trans hn) (E.edges_registered he)
        (fun q hq hq0 => E.head ▸ hr q (List.mem_cons_of_mem _ hq) hq0)

theorem gc_markF_done : ∀ (f : Nat) (h : Heap) (obj : Ptr),
    unmarked_count h < f → EdgesRegistered h → (obj = 0 ∨ obj ∈ h.head) →
    ∃ h2, gc_markF f h obj = .done h2 := by
  intro f
  induction f with
  | zero => intro h obj hf; exact absurd hf (Nat.not_lt_zero _)
  | succ f ih =>
    intro h obj hf he ho
    by_cases o0 : obj = 0
    · exact ⟨h, by simp [gc_markF, o0]⟩
    · have reg : obj ∈ h.head := ho.resolve_left o0
      cases mk : (h.objects obj).marked with
      | true => exact ⟨h, by simp [gc_markF, o0, reg, mk]⟩
      | false =>
        simp only [gc_markF, o0, reg, mk, if_true, if_false]
        have lt := unmarked_count_set_marked h reg mk
        have E0 := MarkExt.set_marked h reg
        refine mark_refs_done (gc_markF f) (unmarked_count (set_marked h obj))
          (fun a r b e => (gc_markF_spec f a r b e).ext) ?_ _ _ (le_refl _)
          (E0.edges_registered he) ?_
        · intro a r ha hea hra
          exact ih a r (by omega) hea (Or.inr hra)
        · intro q hq hq0
          exact he obj reg q hq hq0

theorem mark_refs_congr (g g2 : Heap → Ptr → Outcome Heap) (n : Nat)
    (hspec : ∀ h r h2, g h r = .done h2 → MarkExt h h2)
    (hgg : ∀ h r, unmarked_count h ≤ n → g h r = g2 h r) :
    ∀ (rs : List Ptr) (h : Heap), unmarked_count h ≤ n →
      mark_refs g h rs = mark_refs g2 h rs := by
  intro rs
  induction rs with
  | nil => intro h _; rfl
  | cons r rs ih =>
    intro h hn
    by_cases r0 : r = 0
    · simp only [mark_refs, r0, if_true]
      exact ih h hn
    · simp only [mark_refs, r0, if_false]
      rw [← hgg h r hn]
      cases hgr : g h r with
      | done h1 => exact ih h1 ((hspec h r h1 hgr).unmarked_count_le.trans hn)
      | fault => rfl
      | timeout => rfl

theorem gc_markF_fuel : ∀ (f f2 : Nat) (h : Heap) (obj : Ptr),
    unmarked_count h < f → unmarked_count h < f2 → gc_markF f h obj = gc_markF f2 h obj := by
  intro f
  induction f with
  | zero => intro f2 h obj hf; exact absurd hf (Nat.not_lt_zero _)
  | succ f ih =>
    intro f2 h obj hf hf2
    cases f2 with
    | zero => exact absurd hf2 (Nat.not_lt_zero _)
    | succ f2 =>
      by_cases o0 : obj = 0
      · simp [gc_markF, o0]
      · by_cases reg : obj ∈ h.head
        · cases mk : (h.objects obj).marked with
          | true => simp [gc_markF, o0, reg, mk]
          | false =>
            simp only [gc_markF, o0, reg, mk, if_true, if_false]
            have lt := unmarked_count_set_marked h reg mk
            refine mark_refs_congr (gc_markF f) (gc_markF f2)
              (unmarked_count (set_marked h obj))
              (fun a r b e => (gc_markF_spec f a r b e).ext) ?_ _ _ (le_refl _)
            intro a r ha
            exact ih f2 a r (by omega) (by omega)
        · simp [gc_markF, o0, reg]

theorem gc_mark_eq_fuel (h : Heap) (obj : Ptr) (f : Nat) (hf : unmarked_count h < f) :
    gc_markF f h obj = gc_mark h obj :=
  gc_markF_fuel f _ h obj hf (Nat.lt_succ_of_le (unmarked_count_le_length h))

theorem gc_mark_done (h : Heap) (obj : Ptr) (he : EdgesRegistered h)
    (ho : obj = 0 ∨ obj ∈ h.head) : ∃ h2, gc_mark h obj = .done h2 :=
  gc_markF_done _ h obj (Nat.lt_succ_of_le (unmarked_count_le_length h)) he ho

theorem gc_mark_root_set_done (h : Heap) (he : EdgesRegistered h) (hr : RootsRegistered h) :
    ∃ h2, gc_mark_root_set h = .done h2 := by
  unfold gc_mark_root_set
  rw [mark_roots_eq]
  exact mark_refs_done gc_mark (unmarked_count h)
    (fun a r b e => (gc_mark_spec a r b e).ext)
    (fun a r _ hea hra => gc_mark_done a r hea (Or.inr hra)) _ h (le_refl _) he
    (fun r hr2 _ => (hr r hr2).2)

/-! ## The sweep -/

theorem sweep_chain_outside : ∀ (l : List Ptr) (objs : Ptr → Object) (q : Ptr),
    q ∉ l → (sweep_chain objs l).2 q = objs q := by
  intro l
  induction l with
  | nil => intro objs q _; rfl
  | cons p rest ih =>
    intro objs q hq
    have hqp : q ≠ p := fun c => hq (c ▸ List.mem_cons_self _ _)
    have hqr : q ∉ rest := fun c => hq (List.mem_cons_of_mem _ c)
    cases mk : (objs p).marked with
    | true =>
      simp only [sweep_chain, mk, if_true]
      rw [ih _ q hqr, Function.update_noteq hqp]
    | false =>
      simp only [sweep_chain, mk, if_false, Bool.false_eq_true]
      rw [ih _ q hqr, Function.update_noteq hqp]

theorem sweep_chain_mem : ∀ (l : List Ptr) (objs : Ptr → Object) (q : Ptr),
    q ∈ (sweep_chain objs l).1 ↔ q ∈ l ∧ (objs q).marked = true := by
  intro l
  induction l with
  | nil => intro objs q; simp [sweep_chain]
  | cons p rest ih =>
    intro objs q
    cases mk : (objs p).marked with
    | true =>
      simp only [sweep_chain, mk, if_true, List.mem_cons]
      rw [ih]
      by_cases hqp : q = p
      · subst hqp; simp [mk]
      · simp [hqp, Function.update_noteq hqp]
    | false =>
      simp only [sweep_chain, mk, if_false, Bool.false_eq_true, List.mem_cons]
      rw [ih]
      by_cases hqp : q = p
      · subst hqp; simp [mk, clear_references]
      · simp [hqp, Function.update_noteq hqp]

theorem sweep_chain_marked : ∀ (l : List Ptr) (objs : Ptr → Object) (q : Ptr),
    q ∈ l → ((sweep_chain objs l).2 q).marked = false := by
  intro l
  induction l with
  | nil => intro objs q hq; exact absurd hq (List.not_mem_nil q)
  | cons p rest ih =>
    intro objs q hq
    by_cases hqr : q ∈ rest
    · cases mk : (objs p).marked with
      | true => simp only [sweep_chain, mk, if_true]; exact ih _ q hqr
      | false => simp only [sweep_chain, mk, if_false, Bool.false_eq_true]; exact ih _ q hqr
    · have hqp : q = p := (List.mem_cons.mp hq).resolve_right hqr
      subst hqp
      cases mk : (objs q).marked with
      | true =>
        simp only [sweep_chain, mk, if_true]
        rw [sweep_chain_outside _ _ q hqr]; simp
      | false =>
        simp only [sweep_chain, mk, if_false, Bool.false_eq_true]
        rw [sweep_chain_outside _ _ q hqr]; simp [clear_references, mk]

theorem sweep_chain_references : ∀ (l : List Ptr) (objs : Ptr → Object) (q y : Ptr),
    y ∈ ((sweep_chain objs l).2 q).references → y ≠ 0 → y ∈ (objs q).references := by
  intro l
  induction l with
  | nil => intro objs q y hy _; exact hy
  | cons p rest ih =>
    intro objs q y hy hy0
    cases mk : (objs p).marked with
    | true =>
      simp only [sweep_chain, mk, if_true] at hy
      have := ih _ q y hy hy0
      by_cases hqp : q = p
      · subst hqp; simpa using this
      · simpa [Function.update_noteq hqp] using this
    | false =>
      simp only [sweep_chain, mk, if_false, Bool.false_eq_true] at hy
      have := ih _ q y hy hy0
      by_cases hqp : q = p
      · subst hqp
        simp only [Function.update_same, clear_references, List.mem_map] at this
        obtain ⟨_, _, e⟩ := this
        exact absurd e.symm hy0
      · simpa [Function.update_noteq hqp] using this

theorem sweep_chain_nodup : ∀ (l : List Ptr) (objs : Ptr → Object), l.Nodup →
    (sweep_chain objs l).1 = l.filter (fun p => (objs p).marked) ∧
    ∀ q ∈ l, (sweep_chain objs l).2 q =
      if (objs q).marked then { objs q with marked := false }
      else clear_references (objs q) := by
  intro l
  induction l with
  | nil => intro objs _; exact ⟨rfl, fun q hq => absurd hq (List.not_mem_nil q)⟩
  | cons p rest ih =>
    intro objs nd
    have hp : p ∉ rest := (List.nodup_cons.mp nd).1
    have ndr : rest.Nodup := (List.nodup_cons.mp nd).2
    have key : ∀ (v : Object),
        rest.filter (fun x => (Function.update objs p v x).marked) =
        rest.filter (fun x => (objs x).marked) := by
      intro v
      apply List.filter_congr
      intro x hx
      have : x ≠ p := fun c => hp (c ▸ hx)
      rw [Function.update_noteq this]
    cases mk : (objs p).marked with
    | true =>
      obtain ⟨e1, e2⟩ := ih (Function.update objs p { objs p with marked := false }) ndr
      refine ⟨?_, ?_⟩
      · simp only [sweep_chain, mk, if_true]
        rw [e1, key, List.filter_cons_of_pos (by simpa using mk)]
      · intro q hq
        simp only [sweep_chain, mk, if_true]
        by_cases hqr : q ∈ rest
        · have hqp : q ≠ p := fun c => hp (c ▸ hqr)
          rw [e2 q hqr, Function.update_noteq hqp]
        · have hqp : q = p := (List.mem_cons.mp hq).resolve_right hqr
          subst hqp
          rw [sweep_chain_outside _ _ q hqr]
          simp [mk]
    | false =>
      obtain ⟨e1, e2⟩ := ih (Function.update objs p (clear_references (objs p))) ndr
      refine ⟨?_, ?_⟩
      · simp only [sweep_chain, mk, if_false, Bool.false_eq_true]
        rw [e1, key, List.filter_cons_of_neg (by simp [mk])]
      · intro q hq
        simp only [sweep_chain, mk, if_false, Bool.false_eq_true]
        by_cases hqr : q ∈ rest
        · have hqp : q ≠ p := fun c => hp (c ▸ hqr)
          rw [e2 q hqr, Function.update_noteq hqp]
        · have hqp : q = p := (List.mem_cons.mp hq).resolve_right hqr
          subst hqp
          rw [sweep_chain_outside _ _ q hqr]
          simp [mk]

/-! ## A collection cycle on a well-formed heap -/

theorem FromRoots.registered {h : Heap} (wf : WellFormed h) {p : Ptr} (fr : FromRoots h p) :
    p ≠ 0 ∧ p ∈ h.head := by
  obtain ⟨r, hr, path⟩ := fr
  cases path with
  | refl => exact wf.roots _ hr
  | tail _ e => exact ⟨e.2.1, wf.edges _ e.1 p e.2.2 e.2.1⟩

theorem FromRoots.step {h : Heap} {a b : Ptr} (fr : FromRoots h a) (e : Edge h a b) :
    FromRoots h b := by
  obtain ⟨r, hr, path⟩ := fr
  exact ⟨r, hr, Relation.ReflTransGen.tail path e⟩

theorem mark_phase (h : Heap) (wf : WellFormed h) :
    ∃ h1, gc_mark_root_set h = .done h1 ∧ MarkExt h h1 ∧
      ∀ p, p ∈ h.head → ((h1.objects p).marked = true ↔ FromRoots h p) := by
  obtain ⟨h1, e⟩ := gc_mark_root_set_done h wf.edges wf.roots
  have L := gc_mark_root_set_spec h h1 e
  have complete : ∀ r ∈ h.roots.entries, ∀ x, Reach h r x →
      (h1.objects x).marked = true := by
    intro r hr x path
    induction path with
    | refl => exact L.each r hr (wf.roots r hr).1
    | tail _ e ih => exact L.closed _ ih (wf.unmarked _ e.1) _ e
  refine ⟨h1, e, L.ext, fun p hp => ⟨fun m => ?_, fun fr => ?_⟩⟩
  · obtain ⟨r, hr, _, w⟩ := L.sound p m (wf.unmarked p hp)
    exact ⟨r, hr, w.reach⟩
  · obtain ⟨r, hr, path⟩ := fr
    exact complete r hr p path

theorem gc_sweep_mem (h : Heap) (p : Ptr) :
    p ∈ (gc_sweep h).head ↔ p ∈ h.head ∧ (h.objects p).marked = true :=
  sweep_chain_mem h.head h.objects p

theorem cycle_phase (h : Heap) (wf : WellFormed h) :
    ∃ h1, gc_mark_root_set h = .done h1 ∧ collect h = .done (gc_sweep h1) ∧ MarkExt h h1 ∧
      (∀ p, p ∈ (gc_sweep h1).head ↔ FromRoots h p) ∧
      (∀ p ∈ h.head, ((h1.objects p).marked = true ↔ FromRoots h p)) := by
  obtain ⟨h1, e, E, M⟩ := mark_phase h wf
  refine ⟨h1, e, by simp [collect, e], E, fun p => ?_, M⟩
  rw [gc_sweep_mem, E.head]
  constructor
  · rintro ⟨hp, m⟩
    exact (M p hp).mp m
  · intro fr
    have hp := (fr.registered wf).2
    exact ⟨hp, (M p hp).mpr fr⟩

theorem cycle_well_formed (h : Heap) (wf : WellFormed h) :
    ∃ h2, collect h = .done h2 ∧ h2.roots = h.roots ∧
      (∀ p, p ∈ h2.head ↔ FromRoots h p) ∧ WellFormed h2 := by
  obtain ⟨h1, _, e, E, S, _⟩ := cycle_phase h wf
  refine ⟨gc_sweep h1, e, E.roots, S, ?_, ?_, ?_⟩
  · intro p hp
    exact sweep_chain_marked _ _ p ((gc_sweep_mem h1 p).mp hp).1
  · intro r hr
    have hr2 : r ∈ h.roots.entries := by
      have : (gc_sweep h1).roots = h.roots := E.roots
      rw [this] at hr; exact hr
    exact ⟨(wf.roots r hr2).1, (S r).mpr ⟨r, hr2, Relation.ReflTransGen.refl⟩⟩
  · intro p hp q hq hq0
    have hq1 : q ∈ (h1.objects p).references := sweep_chain_references _ _ p q hq hq0
    rw [E.references] at hq1
    have fp := (S p).mp hp
    exact (S q).mpr (fp.step ⟨(fp.registered wf).2, hq0, hq1⟩)

/-! ## Reachability correctness -/

/-- C1: on a heap whose objects are all unmarked and whose roots and non-empty
edge slots refer to registered objects, a cycle `gc_mark_root_set; gc_sweep`
returns, the registry afterwards holds exactly the objects reachable from the
Root Set, and every one of them is unmarked. -/
theorem collect_reachability (h : Heap) (wf : WellFormed h) :
    ∃ h2, collect h = .done h2 ∧
      (∀ p, p ∈ h2.head ↔ FromRoots h p) ∧
      (∀ p ∈ h2.head, (h2.objects p).marked = false) := by
  obtain ⟨h2, e, _, S, wf2⟩ := cycle_well_formed h wf
  exact ⟨h2, e, S, wf2.unmarked⟩

/-- Witness of C1 on the heap of `main`. -/
theorem collect_reachability_witness :
    WellFormed (main_heap 10 20 30 40) ∧
    ∃ h2, collect (main_heap 10 20 30 40) = .done h2 ∧
      (∀ p, p ∈ h2.head ↔ FromRoots (main_heap 10 20 30 40) p) ∧
      (∀ p ∈ h2.head, (h2.objects p).marked = false) :=
  ⟨⟨by decide, by decide, by decide⟩,
    collect_reachability (main_heap 10 20 30 40) ⟨by decide, by decide, by decide⟩⟩

/-- C2: on a heap whose objects are all unmarked and whose roots and non-empty
edge slots refer to registered objects, `gc_mark_root_set` returns, leaves the
registry as it was, and a registered object is marked afterwards if and only if
it is reachable from a Root Set entry; every other one is still unmarked. -/
theorem mark_root_set_exact (h : Heap) (wf : WellFormed h) :
    ∃ h1, gc_mark_root_set h = .done h1 ∧ h1.head = h.head ∧
      (∀ p ∈ h1.head, ((h1.objects p).marked = true ↔ FromRoots h p)) ∧
      (∀ p ∈ h1.head, ¬ FromRoots h p → (h1.objects p).marked = false) := by
  obtain ⟨h1, e, E, M⟩ := mark_phase h wf
  refine ⟨h1, e, E.head, fun p hp => M p (E.head ▸ hp), fun p hp nfr => ?_⟩
  cases m : (h1.objects p).marked with
  | false => rfl
  | true => exact absurd ((M p (E.head ▸ hp)).mp m) nfr

/-- Witness of C2 on the heap of `main`. -/
theorem mark_root_set_exact_witness :
    WellFormed (main_heap 1 2 3 4) ∧
    ∃ h1, gc_mark_root_set (main_heap 1 2 3 4) = .done h1 ∧
      h1.head = (main_heap 1 2 3 4).head ∧
      (∀ p ∈ h1.head, ((h1.objects p).marked = true ↔ FromRoots (main_heap 1 2 3 4) p)) ∧
      (∀ p ∈ h1.head, ¬ FromRoots (main_heap 1 2 3 4) p → (h1.objects p).marked = false) :=
  ⟨⟨by decide, by decide, by decide⟩,
    mark_root_set_exact (main_heap 1 2 3 4) ⟨by decide, by decide, by decide⟩⟩

/-! ## Sweep postcondition -/

/-- C3: for every registry holding each object once and every assignment of
mark flags, after `gc_sweep` the registry is the previous registry restricted
to the objects that were marked, in the previous order; each of them is now
unmarked with id, out-degree and edge slots unchanged; every object that was
unmarked is gone from the registry. -/
theorem gc_sweep_post (h : Heap) (nd : h.head.Nodup) :
    (gc_sweep h).head = h.head.filter (fun p => (h.objects p).marked) ∧
    (∀ p ∈ (gc_sweep h).head,
      ((gc_sweep h).objects p).marked = false ∧
      ((gc_sweep h).objects p).id = (h.objects p).id ∧
      ((gc_sweep h).objects p).number_of_references = (h.objects p).number_of_references ∧
      ((gc_sweep h).objects p).references = (h.objects p).references) ∧
    (∀ p ∈ h.head, (h.objects p).marked = false → p ∉ (gc_sweep h).head) := by
  obtain ⟨e1, e2⟩ := sweep_chain_nodup h.head h.objects nd
  refine ⟨e1, fun p hp => ?_, fun p _ m hp => ?_⟩
  · obtain ⟨hp1, m⟩ := (gc_sweep_mem h p).mp hp
    have : (gc_sweep h).objects p = { h.objects p with marked := false } := by
      have := e2 p hp1
      rw [m] at this
      simpa [gc_sweep] using this
    rw [this]
    exact ⟨rfl, rfl, rfl, rfl⟩
  · have := ((gc_sweep_mem h p).mp hp).2
    rw [m] at this
    exact absurd this (by decide)

/-- Witness of C3: the heap of `main` with the objects at 2 and 3 marked. -/
theorem gc_sweep_post_witness :
    (set_marked (set_marked (main_heap 1 2 3 4) 2) 3).head.Nodup ∧
    (gc_sweep (set_marked (set_marked (main_heap 1 2 3 4) 2) 3)).head = [3, 2] :=
  ⟨by decide,
    (gc_sweep_post (set_marked (set_marked (main_heap 1 2 3 4) 2) 3) (by decide)).1.trans
      (by decide)⟩

/-! ## No dangling references -/

/-- C4: on a heap whose objects are all unmarked and whose roots and non-empty
edge slots refer to registered objects, after a cycle every non-empty edge slot
of every surviving object refers to a surviving object, and every Root Set
entry is a surviving object. -/
theorem collect_no_dangling (h : Heap) (wf : WellFormed h) :
    ∃ h2, collect h = .done h2 ∧
      (∀ p ∈ h2.head, ∀ q ∈ (h2.objects p).references, q ≠ 0 → q ∈ h2.head) ∧
      (∀ r ∈ h2.roots.entries, r ≠ 0 ∧ r ∈ h2.head) ∧
      WellFormed h2 := by
  obtain ⟨h2, e, _, _, wf2⟩ := cycle_well_formed h wf
  exact ⟨h2, e, wf2.edges, wf2.roots, wf2⟩

/-- Witness of C4 on the heap with a reference cycle. -/
theorem collect_no_dangling_witness :
    WellFormed (cycle_heap 5 6 7) ∧
    ∃ h2, collect (cycle_heap 5 6 7) = .done h2 ∧
      (∀ p ∈ h2.head, ∀ q ∈ (h2.objects p).references, q ≠ 0 → q ∈ h2.head) ∧
      (∀ r ∈ h2.roots.entries, r ≠ 0 ∧ r ∈ h2.head) ∧
      WellFormed h2 :=
  ⟨⟨by decide, by decide, by decide⟩,
    collect_no_dangling (cycle_heap 5 6 7) ⟨by decide, by decide, by decide⟩⟩

/-! ## The instrumented marker -/

theorem mark_refsT_fst (g : Heap → Ptr → Outcome (Heap × List Ptr))
    (g2 : Heap → Ptr → Outcome Heap) (hg : ∀ h r, (g h r).map Prod.fst = g2 h r) :
    ∀ (rs : List Ptr) (h : Heap),
      (mark_refsT g h rs).map Prod.fst = mark_refs g2 h rs := by
  intro rs
  induction rs with
  | nil => intro h; rfl
  | cons r rs ih =>
    intro h
    by_cases r0 : r = 0
    · simp only [mark_refsT, mark_refs, r0, if_true]
      exact ih h
    · simp only [mark_refsT, mark_refs, r0, if_false]
      rw [← hg h r]
      cases hgr : g h r with
      | done a =>
        obtain ⟨h1, t1⟩ := a
        simp only [Outcome.map]
        rw [← ih h1]
        cases mark_refsT g h1 rs with
        | done b => rfl
        | fault => rfl
        | timeout => rfl
      | fault => rfl
      | timeout => rfl

theorem gc_markT_fst : ∀ (f : Nat) (h : Heap) (obj : Ptr),
    (gc_markT f h obj).map Prod.fst = gc_markF f h obj := by
  intro f
  induction f with
  | zero => intro h obj; rfl
  | succ f ih =>
    intro h obj
    by_cases o0 : obj = 0
    · simp [gc_markT, gc_markF, o0, Outcome.map]
    · by_cases reg : obj ∈ h.head
      · cases mk : (h.objects obj).marked with
        | true => simp [gc_markT, gc_markF, o0, reg, mk, Outcome.map]
        | false =>
          simp only [gc_markT, gc_markF, o0, reg, mk, if_true, if_false]
          rw [← mark_refsT_fst (gc_markT f) (gc_markF f) ih]
          cases mark_refsT (gc_markT f) (set_marked h obj) (h.objects obj).references with
          | done b => rfl
          | fault => rfl
          | timeout => rfl
      · simp [gc_markT, gc_markF, o0, reg, Outcome.map]

theorem mark_refsT_spec (g : Heap → Ptr → Outcome (Heap × List Ptr))
    (hg : ∀ h r h2 t, g h r = .done (h2, t) → TraceSpec h h2 t) :
    ∀ (rs : List Ptr) (h h2 : Heap) (t : List Ptr),
      mark_refsT g h rs = .done (h2, t) → TraceSpec h h2 t := by
  intro rs
  induction rs with
  | nil =>
    intro h h2 t e
    simp only [mark_refsT, Outcome.done.injEq, Prod.mk.injEq] at e
    obtain ⟨e1, e2⟩ := e
    subst e1; subst e2
    exact ⟨MarkExt.refl h, List.nodup_nil, fun p hp => absurd hp (List.not_mem_nil p)⟩
  | cons r rs ih =>
    intro h h2 t e
    by_cases r0 : r = 0
    · simp only [mark_refsT, r0, if_true] at e
      exact ih h h2 t e
    · simp only [mark_refsT, r0, if_false] at e
      cases hgr : g h r with
      | fault => rw [hgr] at e; exact absurd e (by simp)
      | timeout => rw [hgr] at e; exact absurd e (by simp)
      | done a =>
        obtain ⟨h1, t1⟩ := a
        rw [hgr] at e
        simp only at e
        cases hrest : mark_refsT g h1 rs with
        | fault => rw [hrest] at e; exact absurd e (by simp)
        | timeout => rw [hrest] at e; exact absurd e (by simp)
        | done b =>
          obtain ⟨h3, t2⟩ := b
          rw [hrest] at e
          simp only [Outcome.done.injEq, Prod.mk.injEq] at e
          obtain ⟨e1, e2⟩ := e
          subst e1; subst e2
          have S := hg h r h1 t1 hgr
          have L := ih h1 h3 t2 hrest
          refine ⟨S.ext.trans L.ext, ?_, ?_⟩
          · rw [List.nodup_append]
            refine ⟨S.nodup, L.nodup, fun p hp1 hp2 => ?_⟩
            have a1 := (S.fresh p hp1).2
            have a2 := (L.fresh p hp2).1
            rw [a1] at a2
            exact absurd a2 (by decide)
          · intro p hp
            rcases List.mem_append.mp hp with hp1 | hp2
            · exact ⟨(S.fresh p hp1).1, L.ext.marks_mono (S.fresh p hp1).2⟩
            · exact ⟨S.ext.unmarked_of (L.fresh p hp2).1, (L.fresh p hp2).2⟩

theorem gc_markT_spec : ∀ (f : Nat) (h : Heap) (obj : Ptr) (h2 : Heap) (t : List Ptr),
    gc_markT f h obj = .done (h2, t) → TraceSpec h h2 t := by
  intro f
  induction f with
  | zero => intro h obj h2 t e; simp [gc_markT] at e
  | succ f ih =>
    intro h obj h2 t e
    have triv : ∀ (k : Heap), TraceSpec k k [] := fun k =>
      ⟨MarkExt.refl k, List.nodup_nil, fun p hp => absurd hp (List.not_mem_nil p)⟩
    by_cases o0 : obj = 0
    · simp only [gc_markT, o0, if_true, Outcome.done.injEq, Prod.mk.injEq] at e
      obtain ⟨e1, e2⟩ := e
      subst e1; subst e2
      exact triv h
    · by_cases reg : obj ∈ h.head
      · cases mk : (h.objects obj).marked with
        | true =>
          simp only [gc_markT, o0, reg, mk, if_true, if_false, Outcome.done.injEq,
            Prod.mk.injEq] at e
          obtain ⟨e1, e2⟩ := e
          subst e1; subst e2
          exact triv h
        | false =>
          simp only [gc_markT, o0, reg, mk, if_true, if_false] at e
          cases hl : mark_refsT (gc_markT f) (set_marked h obj) (h.objects obj).references with
          | fault => rw [hl] at e; exact absurd e (by simp)
          | timeout => rw [hl] at e; exact absurd e (by simp)
          | done b =>
            obtain ⟨h3, t2⟩ := b
            rw [hl] at e
            simp only [Bool.false_eq_true, if_false, Outcome.done.injEq, Prod.mk.injEq] at e
            obtain ⟨e1, e2⟩ := e
            subst e1; subst e2
            have L := mark_refsT_spec (gc_markT f) ih _ _ _ _ hl
            have E0 := MarkExt.set_marked h reg
            have self0 : ((set_marked h obj).objects obj).marked = true := by
              simp [set_marked]
            refine ⟨E0.trans L.ext, ?_, ?_⟩
            · rw [List.nodup_cons]
              refine ⟨fun hp => ?_, L.nodup⟩
              have a2 := (L.fresh obj hp).1
              rw [self0] at a2
              exact absurd a2 (by decide)
            · intro p hp
              rcases List.mem_cons.mp hp with hp1 | hp2
              · subst hp1
                exact ⟨mk, L.ext.marks_mono self0⟩
              · exact ⟨E0.unmarked_of (L.fresh p hp2).1, (L.fresh p hp2).2⟩
      · simp [gc_markT, o0, reg] at e

/-! ## Termination of the mark traversal -/

/-- C5: `gc_mark` is total on every registry, for every assignment of mark
flags: its recursion never exhausts the depth it is given, any depth above the
number of unmarked objects gives the same result, and it returns when the edge
slots refer to registered objects; past the guard the number of unmarked
objects drops strictly; no object has its edge slots expanded twice. -/
theorem gc_mark_terminates (h : Heap) (obj : Ptr) :
    gc_mark h obj ≠ .timeout ∧
    (∀ f, unmarked_count h < f → gc_markF f h obj = gc_mark h obj) ∧
    (EdgesRegistered h → (obj = 0 ∨ obj ∈ h.head) → ∃ h2, gc_mark h obj = .done h2) ∧
    (obj ≠ 0 → obj ∈ h.head → (h.objects obj).marked = false →
      unmarked_count (set_marked h obj) < unmarked_count h) ∧
    (∀ f, (gc_markT f h obj).map Prod.fst = gc_markF f h obj) ∧
    (∀ f h2 t, gc_markT f h obj = .done (h2, t) → t.Nodup) :=
  ⟨gc_markF_no_timeout _ h obj (Nat.lt_succ_of_le (unmarked_count_le_length h)),
    fun f hf => gc_mark_eq_fuel h obj f hf,
    fun he ho => gc_mark_done h obj he ho,
    fun _ reg mk => unmarked_count_set_marked h reg mk,
    fun f => gc_markT_fst f h obj,
    fun f h2 t e => (gc_markT_spec f h obj h2 t e).nodup⟩

/-- Witness of C5 on the heap with a reference cycle, marking from `x`. -/
theorem gc_mark_terminates_witness :
    (∃ h2, gc_mark (cycle_heap 5 6 7) 5 = .done h2) ∧
    unmarked_count (set_marked (cycle_heap 5 6 7) 5) < unmarked_count (cycle_heap 5 6 7) :=
  ⟨(gc_mark_terminates (cycle_heap 5 6 7) 5).2.2.1 (by decide) (by decide),
    (gc_mark_terminates (cycle_heap 5 6 7) 5).2.2.2.1 (by decide) (by decide) (by decide)⟩

/-! ## Cycle safety -/

/-- C6: on a well-formed heap with edges `x → y` and `y → x`, after a cycle
either both `x` and `y` are in the registry, which happens exactly when one of
them is reachable from a root, or neither is. -/
theorem collect_cycle_safe (h : Heap) (wf : WellFormed h) (x y : Ptr)
    (exy : Edge h x y) (eyx : Edge h y x) :
    ∃ h2, collect h = .done h2 ∧
      ((x ∈ h2.head ∧ y ∈ h2.head ∧ (FromRoots h x ∨ FromRoots h y)) ∨
       (x ∉ h2.head ∧ y ∉ h2.head ∧ ¬ FromRoots h x ∧ ¬ FromRoots h y)) := by
  obtain ⟨h2, e, _, S, _⟩ := cycle_well_formed h wf
  refine ⟨h2, e, ?_⟩
  have both : FromRoots h x ↔ FromRoots h y := ⟨fun f => f.step exy, fun f => f.step eyx⟩
  by_cases fx : FromRoots h x
  · exact Or.inl ⟨(S x).mpr fx, (S y).mpr (both.mp fx), Or.inl fx⟩
  · have fy : ¬ FromRoots h y := fun f => fx (both.mpr f)
    exact Or.inr ⟨fun m => fx ((S x).mp m), fun m => fy ((S y).mp m), fx, fy⟩

/-- Witness of C6 on the heap with a reference cycle. -/
theorem collect_cycle_safe_witness :
    WellFormed (cycle_heap 5 6 7) ∧ Edge (cycle_heap 5 6 7) 5 6 ∧ Edge (cycle_heap 5 6 7) 6 5 ∧
    ∃ h2, collect (cycle_heap 5 6 7) = .done h2 ∧
      ((5 ∈ h2.head ∧ 6 ∈ h2.head ∧
          (FromRoots (cycle_heap 5 6 7) 5 ∨ FromRoots (cycle_heap 5 6 7) 6)) ∨
       (5 ∉ h2.head ∧ 6 ∉ h2.head ∧
          ¬ FromRoots (cycle_heap 5 6 7) 5 ∧ ¬ FromRoots (cycle_heap 5 6 7) 6)) :=
  ⟨⟨by decide, by decide, by decide⟩, by decide, by decide,
    collect_cycle_safe (cycle_heap 5 6 7) ⟨by decide, by decide, by decide⟩ 5 6
      (by decide) (by decide)⟩

/-! ## Repeated collection -/

theorem cycle_all_reachable (h : Heap) (wf : WellFormed h) (nd : h.head.Nodup) :
    ∃ h1, collect h = .done h1 ∧ h1.roots = h.roots ∧ WellFormed h1 ∧ h1.head.Nodup ∧
      (∀ p, p ∈ h1.head ↔ FromRoots h p) ∧ (∀ p ∈ h1.head, FromRoots h1 p) := by
  obtain ⟨hm, _, e, E, S, _⟩ := cycle_phase h wf
  obtain ⟨h1, e1, r1, S1, wf1⟩ := cycle_well_formed h wf
  have same : h1 = gc_sweep hm := by
    rw [e] at e1
    exact (Outcome.done.inj e1).symm
  have ndm : hm.head.Nodup := E.head ▸ nd
  obtain ⟨f1, f2⟩ := sweep_chain_nodup hm.head hm.objects ndm
  have refs : ∀ p ∈ h1.head, (h1.objects p).references = (h.objects p).references := by
    intro p hp
    rw [same] at hp ⊢
    obtain ⟨hp1, m⟩ := (gc_sweep_mem hm p).mp hp
    have := f2 p hp1
    rw [m] at this
    have key : (gc_sweep hm).objects p = { hm.objects p with marked := false } := by
      simpa [gc_sweep] using this
    rw [key]
    exact E.references p
  have lift : ∀ r ∈ h.roots.entries, ∀ x, Reach h r x → Reach h1 r x := by
    intro r hr x path
    induction path with
    | refl => exact Relation.ReflTransGen.refl
    | tail pb ed ih =>
      have hb := (S1 _).mpr ⟨r, hr, pb⟩
      exact Relation.ReflTransGen.tail ih ⟨hb, ed.2.1, by rw [refs _ hb]; exact ed.2.2⟩
  refine ⟨h1, e1, r1, wf1, ?_, S1, fun p hp => ?_⟩
  · rw [same]
    show (sweep_chain hm.objects hm.head).1.Nodup
    rw [f1]
    exact ndm.filter _
  · obtain ⟨r, hr, path⟩ := (S1 p).mp hp
    exact ⟨r, by rw [r1]; exact hr, lift r hr p path⟩

theorem cycle_keeps_all (h : Heap) (wf : WellFormed h) (nd : h.head.Nodup)
    (all : ∀ p ∈ h.head, FromRoots h p) :
    ∃ h2, collect h = .done h2 ∧ h2.head = h.head ∧ h2.roots = h.roots ∧
      ∀ p ∈ h.head, h2.objects p = h.objects p := by
  obtain ⟨hm, _, e, E, _, M⟩ := cycle_phase h wf
  have ndm : hm.head.Nodup := E.head ▸ nd
  obtain ⟨f1, f2⟩ := sweep_chain_nodup hm.head hm.objects ndm
  have marked : ∀ p ∈ h.head, (hm.objects p).marked = true :=
    fun p hp => (M p hp).mpr (all p hp)
  refine ⟨gc_sweep hm, e, ?_, E.roots, fun p hp => ?_⟩
  · show (sweep_chain hm.objects hm.head).1 = h.head
    rw [f1, E.head, List.filter_eq_self]
    intro p hp
    exact marked p hp
  · have := f2 p (E.head ▸ hp)
    rw [marked p hp] at this
    have key : (gc_sweep hm).objects p = { hm.objects p with marked := false } := by
      simpa [gc_sweep] using this
    rw [key]
    have um := wf.unmarked p hp
    rcases E.objects p with eo | ⟨_, eo⟩ <;> rw [eo]
    · cases ho : h.objects p with
      | mk i m rs => rw [ho] at um; simp only at um; subst um; rfl
    · cases ho : h.objects p with
      | mk i m rs => rw [ho] at um; simp only at um; subst um; rfl

/-- C7: on a well-formed heap whose registry holds each object once, a second
cycle run right after the first returns the same registry, Root Set and
objects as the first: it removes nothing. -/
theorem collect_idempotent (h : Heap) (wf : WellFormed h) (nd : h.head.Nodup) :
    ∃ h1 h2, collect h = .done h1 ∧ collect h1 = .done h2 ∧
      h2.head = h1.head ∧ (∀ p, p ∈ h2.head ↔ p ∈ h1.head) ∧
      h2.roots = h1.roots ∧ (∀ p ∈ h1.head, h2.objects p = h1.objects p) := by
  obtain ⟨h1, e1, _, wf1, nd1, _, all1⟩ := cycle_all_reachable h wf nd
  obtain ⟨h2, e2, hd, rt, ob⟩ := cycle_keeps_all h1 wf1 nd1 all1
  exact ⟨h1, h2, e1, e2, hd, fun p => by rw [hd], rt, ob⟩

/-- Witness of C7 on the heap with a reference cycle (the object apart from
the cycle goes in the first collection). -/
theorem collect_idempotent_witness :
    WellFormed (cycle_heap 5 6 7) ∧ (cycle_heap 5 6 7).head.Nodup ∧
    ∃ h1 h2, collect (cycle_heap 5 6 7) = .done h1 ∧ collect h1 = .done h2 ∧
      h2.head = h1.head ∧ (∀ p, p ∈ h2.head ↔ p ∈ h1.head) ∧
      h2.roots = h1.roots ∧ (∀ p ∈ h1.head, h2.objects p = h1.objects p) :=
  ⟨⟨by decide, by decide, by decide⟩, by decide,
    collect_idempotent (cycle_heap 5 6 7) ⟨by decide, by decide, by decide⟩ (by decide)⟩

/-! ## Root removal -/

theorem collect_no_roots (k : Heap) (um : AllUnmarked k) (c0 : k.roots.count = 0) :
    collect k = .done (gc_sweep k) ∧ (gc_sweep k).head = [] := by
  have en : k.roots.entries = [] := by simp [RootSet.entries, c0]
  refine ⟨by simp [collect, gc_mark_root_set, en, mark_roots], ?_⟩
  rw [List.eq_nil_iff_forall_not_mem]
  intro p hp
  obtain ⟨hp1, m⟩ := (gc_sweep_mem k p).mp hp
  rw [um p hp1] at m
  exact absurd m (by decide)

/-- C8: on a well-formed heap whose Root Set is the single entry `a`, a cycle
keeps every object reachable from `a`, and the cycle run after
`gc_remove_root(a)` leaves the registry empty; in general a cycle on unmarked
objects with an empty Root Set empties the registry. -/
theorem root_removal_reclaims (h : Heap) (wf : WellFormed h) (a : Ptr)
    (c1 : h.roots.count = 1) (ea : h.roots.entries = [a]) :
    (∃ h1, collect h = .done h1 ∧ (∀ x, Reach h a x → x ∈ h1.head) ∧
      (gc_remove_root h1 a).roots.count = 0 ∧
      ∃ h2, collect (gc_remove_root h1 a) = .done h2 ∧ h2.head = []) ∧
    (∀ k : Heap, AllUnmarked k → k.roots.count = 0 →
      ∃ k2, collect k = .done k2 ∧ k2.head = []) := by
  have gen : ∀ k : Heap, AllUnmarked k → k.roots.count = 0 →
      ∃ k2, collect k = .done k2 ∧ k2.head = [] :=
    fun k um c0 => ⟨gc_sweep k, collect_no_roots k um c0⟩
  refine ⟨?_, gen⟩
  obtain ⟨h1, e1, r1, S1, wf1⟩ := cycle_well_formed h wf
  have rem : gc_remove_root h1 a =
      { h1 with roots := { h1.roots with
          items := h1.roots.items.set 0 (h1.roots.items.getD (h1.roots.count - 1) 0)
          count := h1.roots.count - 1 } } := by
    simp [gc_remove_root, r1, ea]
  have c0 : (gc_remove_root h1 a).roots.count = 0 := by
    rw [rem]
    show h1.roots.count - 1 = 0
    rw [r1, c1]
  have um : AllUnmarked (gc_remove_root h1 a) := by
    rw [rem]
    exact wf1.unmarked
  refine ⟨h1, e1, fun x path => (S1 x).mpr ⟨a, by rw [ea]; exact List.mem_singleton_self a, path⟩,
    c0, gen _ um c0⟩

/-- Witness of C8: the scenario of `main`, `a → b → d`, `a → c`, `a` the only
root; the first collection keeps all four objects, the one after
`gc_remove_root(a)` empties the registry. -/
theorem root_removal_reclaims_witness :
    WellFormed (main_heap 10 20 30 40) ∧ (main_heap 10 20 30 40).roots.count = 1 ∧
    (main_heap 10 20 30 40).roots.entries = [10] ∧
    main_run 10 20 30 40 = .done ([40, 30, 20, 10], []) ∧
    ∃ h1, collect (main_heap 10 20 30 40) = .done h1 ∧
      (∀ x, Reach (main_heap 10 20 30 40) 10 x → x ∈ h1.head) ∧
      (gc_remove_root h1 10).roots.count = 0 ∧
      ∃ h2, collect (gc_remove_root h1 10) = .done h2 ∧ h2.head = [] :=
  ⟨⟨by decide, by decide, by decide⟩, by decide, by decide, by decide,
    (root_removal_reclaims (main_heap 10 20 30 40) ⟨by decide, by decide, by decide⟩ 10
      (by decide) (by decide)).1⟩

/-! ## The Root Set -/

theorem entries_length {rs : RootSet} (v : rs.Valid) : rs.entries.length = rs.count := by
  unfold RootSet.entries
  rw [List.length_take]
  exact Nat.min_eq_left (v.1 ▸ v.2)

theorem take_succ_set (l : List Ptr) (c : Nat) (obj : Ptr) (hc : c < l.length) :
    (l.set c obj).take (c + 1) = l.take c ++ [obj] := by
  rw [List.take_succ, List.set_take, List.set_eq_of_length_le (by simp)]
  simp [hc]

theorem realloc_items_take (items : List Ptr) (n : Nat) (hn : items.length ≤ n) :
    (realloc_items items n).take items.length = items ∧ (realloc_items items n).length = n := by
  unfold realloc_items
  rw [List.take_of_length_le hn]
  constructor
  · simp
  · simp; omega

theorem gc_add_root_new (h : Heap) (obj : Ptr) (v : h.roots.Valid) (o0 : obj ≠ 0)
    (nw : obj ∉ h.roots.entries) :
    (gc_add_root h obj).roots.entries = h.roots.entries ++ [obj] ∧
    (gc_add_root h obj).roots.count = h.roots.count + 1 ∧
    (gc_add_root h obj).roots.Valid := by
  obtain ⟨v1, v2⟩ := v
  by_cases full : h.roots.count = h.roots.capacity
  · have hlen : h.roots.items.length = h.roots.count := v1.trans full.symm
    have big : h.roots.items.length <
        (if h.roots.capacity = 0 then 4 else h.roots.capacity * 2) := by
      split <;> omega
    obtain ⟨t1, t2⟩ := realloc_items_take h.roots.items _ (Nat.le_of_lt big)
    have e : gc_add_root h obj = { h with roots :=
        { items := (realloc_items h.roots.items
            (if h.roots.capacity = 0 then 4 else h.roots.capacity * 2)).set h.roots.count obj
          count := h.roots.count + 1
          capacity := if h.roots.capacity = 0 then 4 else h.roots.capacity * 2 } } := by
      unfold gc_add_root
      rw [if_neg o0, if_neg nw]
      simp only [full, if_true]
    rw [e]
    refine ⟨?_, rfl, ?_, ?_⟩
    · show List.take (h.roots.count + 1) _ = List.take h.roots.count h.roots.items ++ [obj]
      rw [take_succ_set _ _ _ (by rw [t2, ← hlen]; exact big)]
      rw [← hlen, t1, List.take_length]
    · show List.length _ = _
      rw [List.length_set, t2]
    · show h.roots.count + 1 ≤ _
      rw [← hlen]; exact big
  · have e : gc_add_root h obj = { h with roots :=
        { items := h.roots.items.set h.roots.count obj
          count := h.roots.count + 1
          capacity := h.roots.capacity } } := by
      unfold gc_add_root
      rw [if_neg o0, if_neg nw]
      simp only [full, if_false]
    rw [e]
    refine ⟨?_, rfl, ?_, ?_⟩
    · exact take_succ_set _ _ _ (by omega)
    · show List.length _ = _
      rw [List.length_set, v1]
    · show h.roots.count + 1 ≤ h.roots.capacity
      omega

/-- C9: `gc_add_root(obj)` changes nothing, neither the Root Set (items, count,
capacity) nor the rest of the heap, when `obj` is null or already an entry;
hence on a Root Set whose array has its `capacity` slots adding the same root
twice gives the same state as adding it once. -/
theorem gc_add_root_noop (h : Heap) (obj : Ptr) :
    (obj = 0 ∨ obj ∈ h.roots.entries → gc_add_root h obj = h) ∧
    (h.roots.Valid → gc_add_root (gc_add_root h obj) obj = gc_add_root h obj) := by
  have first : ∀ k : Heap, obj = 0 ∨ obj ∈ k.roots.entries → gc_add_root k obj = k := by
    intro k hk
    unfold gc_add_root
    by_cases o0 : obj = 0
    · simp [o0]
    · simp [o0, hk.resolve_left o0]
  refine ⟨first h, fun v => ?_⟩
  by_cases c : obj = 0 ∨ obj ∈ h.roots.entries
  · rw [first h c, first h c]
  · rw [not_or] at c
    apply first
    right
    rw [(gc_add_root_new h obj v c.1 c.2).1]
    simp

/-- Witness of C9 on the heap of `main`: the root `1` is present, `2` is new. -/
theorem gc_add_root_noop_witness :
    (1 ∈ (main_heap 1 2 3 4).roots.entries ∧
      gc_add_root (main_heap 1 2 3 4) 1 = main_heap 1 2 3 4) ∧
    ((main_heap 1 2 3 4).roots.Valid ∧
      gc_add_root (gc_add_root (main_heap 1 2 3 4) 2) 2 = gc_add_root (main_heap 1 2 3 4) 2) :=
  ⟨⟨by decide, (gc_add_root_noop (main_heap 1 2 3 4) 1).1 (Or.inr (by decide))⟩,
    ⟨by decide, (gc_add_root_noop (main_heap 1 2 3 4) 2).2 (by decide)⟩⟩

theorem gc_remove_root_absent (h : Heap) (obj : Ptr) (ab : obj ∉ h.roots.entries) :
    gc_remove_root h obj = h := by
  unfold gc_remove_root
  simp only
  rw [if_neg (fun c => ab (List.indexOf_lt_length.mp c))]

theorem gc_remove_root_entries (h : Heap) (obj : Ptr) (v : h.roots.Valid)
    (pr : obj ∈ h.roots.entries) :
    (gc_remove_root h obj).roots.entries =
      (h.roots.entries.set (h.roots.entries.indexOf obj) (h.roots.entries.getLastD 0)).dropLast ∧
    (gc_remove_root h obj).roots.count + 1 = h.roots.count ∧
    (gc_remove_root h obj).roots.capacity = h.roots.capacity ∧
    (gc_remove_root h obj).head = h.head ∧
    (gc_remove_root h obj).objects = h.objects := by
  have len := entries_length v
  have il := List.indexOf_lt_length.mpr pr
  have cpos : 0 < h.roots.count := by rw [← len]; exact Nat.lt_of_le_of_lt (Nat.zero_le _) il
  have cle : h.roots.count ≤ h.roots.items.length := v.1 ▸ v.2
  have e : gc_remove_root h obj = { h with roots := { h.roots with
      items := h.roots.items.set (h.roots.entries.indexOf obj)
        (h.roots.items.getD (h.roots.count - 1) 0)
      count := h.roots.count - 1 } } := by
    unfold gc_remove_root
    simp only
    rw [if_pos il]
  have last : h.roots.entries.getLastD 0 = h.roots.items.getD (h.roots.count - 1) 0 := by
    rw [List.getLastD_eq_getLast?, List.getLast?_eq_getElem?, len, List.getD_eq_getElem?_getD]
    unfold RootSet.entries
    rw [List.getElem?_take, if_pos (by omega)]
  rw [e]
  refine ⟨?_, ?_, rfl, rfl, rfl⟩
  · show List.take (h.roots.count - 1) _ = _
    rw [last, List.dropLast_eq_take, List.length_set, len]
    unfold RootSet.entries
    rw [← List.set_take, List.take_take, Nat.min_eq_left (Nat.sub_le _ _)]
  · show h.roots.count - 1 + 1 = h.roots.count
    omega

theorem swap_remove_mem (es : List Ptr) (obj : Ptr) (nd : es.Nodup) (pr : obj ∈ es) :
    obj ∉ (es.set (es.indexOf obj) (es.getLastD 0)).dropLast ∧
    ∀ e ∈ es, e ≠ obj → e ∈ (es.set (es.indexOf obj) (es.getLastD 0)).dropLast := by
  obtain ⟨l1, l2, rfl, n1⟩ := List.eq_append_cons_of_mem pr
  have n2 : obj ∉ l2 := by
    have := List.nodup_append.mp nd
    exact (List.nodup_cons.mp this.2.1).1
  have idx : List.indexOf obj (l1 ++ obj :: l2) = l1.length := by
    rw [List.indexOf_append_of_not_mem n1, List.indexOf_cons_self, Nat.add_zero]
  rw [idx, List.set_append_right _ _ (le_refl _), Nat.sub_self, List.set_cons_zero]
  rcases List.eq_nil_or_concat l2 with rfl | ⟨l3, z, rfl⟩
  · simp only [List.getLastD_concat, List.dropLast_concat]
    exact ⟨n1, fun e he hne => (List.mem_append.mp he).resolve_right
      (fun c => hne (List.mem_singleton.mp c))⟩
  · simp only [List.concat_eq_append] at n2 ⊢
    have hz : (l1 ++ obj :: (l3 ++ [z])).getLastD 0 = z := by
      rw [show l1 ++ obj :: (l3 ++ [z]) = (l1 ++ obj :: l3) ++ [z] by simp]
      exact List.getLastD_concat _ _ _
    rw [hz, show l1 ++ z :: (l3 ++ [z]) = (l1 ++ z :: l3) ++ [z] by simp, List.dropLast_concat]
    constructor
    · simp only [List.mem_append, List.mem_cons, List.mem_singleton, List.not_mem_nil,
        or_false, not_or] at n2 ⊢
      exact ⟨n1, n2.2, n2.1⟩
    · intro e he hne
      simp only [List.mem_append, List.mem_cons, List.mem_singleton, List.not_mem_nil,
        or_false] at he ⊢
      rcases he with a | a | a | a
      · exact Or.inl a
      · exact absurd a hne
      · exact Or.inr (Or.inr a)
      · exact Or.inr (Or.inl a)

/-- C10: on a Root Set without duplicate entries whose array has its `capacity`
slots, `gc_remove_root(obj)` of an entry `obj` lowers `count` by one, `obj` is
no entry any more, every other entry still is, the entries are the previous
ones with the last moved into the slot of `obj`, and capacity, registry and
objects are unchanged; when `obj` is no entry the whole state is unchanged. -/
theorem gc_remove_root_post (h : Heap) (obj : Ptr) (v : h.roots.Valid)
    (nd : h.roots.entries.Nodup) :
    (obj ∈ h.roots.entries →
      (gc_remove_root h obj).roots.count + 1 = h.roots.count ∧
      obj ∉ (gc_remove_root h obj).roots.entries ∧
      (∀ e ∈ h.roots.entries, e ≠ obj → e ∈ (gc_remove_root h obj).roots.entries) ∧
      (gc_remove_root h obj).roots.entries =
        (h.roots.entries.set (h.roots.entries.indexOf obj)
          (h.roots.entries.getLastD 0)).dropLast ∧
      (gc_remove_root h obj).roots.capacity = h.roots.capacity ∧
      (gc_remove_root h obj).head = h.head ∧
      (gc_remove_root h obj).objects = h.objects) ∧
    (obj ∉ h.roots.entries → gc_remove_root h obj = h) := by
  refine ⟨fun pr => ?_, gc_remove_root_absent h obj⟩
  obtain ⟨e1, e2, e3, e4, e5⟩ := gc_remove_root_entries h obj v pr
  obtain ⟨m1, m2⟩ := swap_remove_mem h.roots.entries obj nd pr
  exact ⟨e2, e1 ▸ m1, fun e he hne => e1 ▸ m2 e he hne, e1, e3, e4, e5⟩

/-- Witness of C10: from the entries `1, 2, 3` the removal of `1` leaves
`3, 2`; the removal of the absent `4` changes nothing. -/
theorem gc_remove_root_post_witness :
    (three_roots 1 2 3 4).roots.Valid ∧ (three_roots 1 2 3 4).roots.entries.Nodup ∧
    (three_roots 1 2 3 4).roots.entries = [1, 2, 3] ∧
    (gc_remove_root (three_roots 1 2 3 4) 1).roots.entries = [3, 2] ∧
    (gc_remove_root (three_roots 1 2 3 4) 1).roots.count + 1 = (three_roots 1 2 3 4).roots.count ∧
    gc_remove_root (three_roots 1 2 3 4) 4 = three_roots 1 2 3 4 :=
  ⟨by decide, by decide, by decide, by decide,
    ((gc_remove_root_post (three_roots 1 2 3 4) 1 (by decide) (by decide)).1 (by decide)).1,
    (gc_remove_root_post (three_roots 1 2 3 4) 4 (by decide) (by decide)).2 (by decide)⟩

/-! ## Growth of the Root Set and creation -/

theorem gc_add_root_frame (h : Heap) (obj : Ptr) :
    (gc_add_root h obj).head = h.head ∧ (gc_add_root h obj).objects = h.objects := by
  unfold gc_add_root
  split
  · exact ⟨rfl, rfl⟩
  · split
    · exact ⟨rfl, rfl⟩
    · exact ⟨rfl, rfl⟩

theorem gc_add_root_capacity (h : Heap) (obj : Ptr) (o0 : obj ≠ 0)
    (nw : obj ∉ h.roots.entries) :
    (gc_add_root h obj).roots.capacity =
      if h.roots.count = h.roots.capacity then
        (if h.roots.capacity = 0 then 4 else h.roots.capacity * 2)
      else h.roots.capacity := by
  unfold gc_add_root
  rw [if_neg o0, if_neg nw]
  by_cases full : h.roots.count = h.roots.capacity
  · simp only [full, if_true]
  · simp only [full, if_false]

/-- C11: on a Root Set whose array has its `capacity` slots with
`count ≤ capacity`, `gc_add_root` of a non-null `obj` that is no entry yet
makes the entries the previous ones followed by `obj`, raises `count` by one,
keeps `capacity` when there was room, and otherwise makes it 4 from 0 and
twice the previous value from anything else. -/
theorem gc_add_root_appends (h : Heap) (obj : Ptr) (v : h.roots.Valid) (o0 : obj ≠ 0)
    (nw : obj ∉ h.roots.entries) :
    (gc_add_root h obj).roots.entries = h.roots.entries ++ [obj] ∧
    (gc_add_root h obj).roots.count = h.roots.count + 1 ∧
    (h.roots.count < h.roots.capacity →
      (gc_add_root h obj).roots.capacity = h.roots.capacity) ∧
    (h.roots.count = h.roots.capacity → h.roots.capacity = 0 →
      (gc_add_root h obj).roots.capacity = 4) ∧
    (h.roots.count = h.roots.capacity → h.roots.capacity ≠ 0 →
      (gc_add_root h obj).roots.capacity = 2 * h.roots.capacity) ∧
    (gc_add_root h obj).head = h.head ∧ (gc_add_root h obj).objects = h.objects := by
  obtain ⟨e1, e2, _⟩ := gc_add_root_new h obj v o0 nw
  have cap := gc_add_root_capacity h obj o0 nw
  refine ⟨e1, e2, fun lt => ?_, fun full z => ?_, fun full nz => ?_, gc_add_root_frame h obj⟩
  · rw [cap, if_neg (Nat.ne_of_lt lt)]
  · rw [cap, if_pos full, if_pos z]
  · rw [cap, if_pos full, if_neg nz, Nat.mul_comm]

/-- Witness of C11: the first root of `main` makes the capacity 4 from 0, a
second root finds room. -/
theorem gc_add_root_appends_witness :
    (gc_init.roots.Valid ∧ (10 : Ptr) ≠ 0 ∧ (10 : Ptr) ∉ gc_init.roots.entries ∧
      (gc_add_root gc_init 10).roots.entries = gc_init.roots.entries ++ [10] ∧
      (gc_add_root gc_init 10).roots.capacity = 4) ∧
    ((main_heap 10 20 30 40).roots.Valid ∧ (20 : Ptr) ≠ 0 ∧
      (20 : Ptr) ∉ (main_heap 10 20 30 40).roots.entries ∧
      (gc_add_root (main_heap 10 20 30 40) 20).roots.entries = [10, 20] ∧
      (gc_add_root (main_heap 10 20 30 40) 20).roots.capacity = 4) :=
  ⟨⟨by decide, by decide, by decide,
      (gc_add_root_appends gc_init 10 (by decide) (by decide) (by decide)).1,
      (gc_add_root_appends gc_init 10 (by decide) (by decide) (by decide)).2.2.2.1
        (by decide) (by decide)⟩,
    ⟨by decide, by decide, by decide,
      (gc_add_root_appends (main_heap 10 20 30 40) 20 (by decide) (by decide) (by decide)).1,
      (gc_add_root_appends (main_heap 10 20 30 40) 20 (by decide) (by decide)
        (by decide)).2.2.1 (by decide)⟩⟩

theorem gc_create_new_object_some {h h2 : Heap} {o : Ptr} {id : Int} {n : Nat}
    (e : gc_create_new_object h o id n = some h2) :
    h2 = link_object h o { id := id, marked := false, references := List.replicate n 0 } := by
  unfold gc_create_new_object at e
  simp only at e
  split at e
  · rename_i c
    simp only [create_block, List.length_replicate] at c
    rw [← Option.some.inj e]
    simp only [Block.object, create_block, c]
  · exact absurd e (by simp)

theorem gc_create_new_object_fits (h : Heap) (o : Ptr) (id : Int) (n : Nat)
    (fit : slots_fit n) :
    gc_create_new_object h o id n =
      some (link_object h o
        { id := id, marked := false, references := List.replicate n 0 }) := by
  unfold slots_fit at fit
  have b1 : (sizeof_pointer * n) % SIZE_MODULUS = sizeof_pointer * n :=
    Nat.mod_eq_of_lt (by omega)
  have b2 : (sizeof_Object + sizeof_pointer * n) % SIZE_MODULUS =
      sizeof_Object + sizeof_pointer * n := Nat.mod_eq_of_lt fit
  have b3 : (sizeof_Object + sizeof_pointer * n - sizeof_Object) / sizeof_pointer = n := by
    rw [Nat.add_sub_cancel_left]
    exact Nat.mul_div_cancel_left n (by decide)
  unfold gc_create_new_object
  simp only [create_block, Block.object, b1, b2, b3, List.length_replicate, if_true]

theorem gc_create_new_object_none (h : Heap) (o : Ptr) (id : Int) (n : Nat)
    (wrap : ¬ slots_fit n) : gc_create_new_object h o id n = none := by
  unfold slots_fit at wrap
  unfold gc_create_new_object
  simp only [create_block, List.length_replicate]
  rw [if_neg]
  intro c
  have lt : (sizeof_Object + sizeof_pointer * n % SIZE_MODULUS) % SIZE_MODULUS <
      SIZE_MODULUS := Nat.mod_lt _ (by decide)
  have le := Nat.div_mul_le_self
    ((sizeof_Object + sizeof_pointer * n % SIZE_MODULUS) % SIZE_MODULUS - sizeof_Object)
    sizeof_pointer
  rw [c] at le
  have e8 : sizeof_pointer = 8 := rfl
  have e16 : sizeof_Object = 16 := rfl
  have eM : SIZE_MODULUS = 18446744073709551616 := rfl
  rw [e8, e16, eM] at wrap lt le
  omega

/-- The postcondition of `gc_create_new_object` when the size computation does
not wrap and `malloc` returns an address `o` not in use: the object at `o` has
the given id, is unmarked and has `n` slots, all empty; the registry is `o` in
front of the previous one; the objects registered before and the Root Set are
unchanged. -/
theorem gc_create_new_object_in_range (h : Heap) (o : Ptr) (id : Int) (n : Nat)
    (fit : slots_fit n) (fresh : o ∉ h.head) :
    ∃ h2, gc_create_new_object h o id n = some h2 ∧
      (h2.objects o).id = id ∧
      (h2.objects o).marked = false ∧
      (h2.objects o).number_of_references = n ∧
      (∀ q ∈ (h2.objects o).references, q = 0) ∧
      h2.head = o :: h.head ∧
      (∀ p ∈ h.head, h2.objects p = h.objects p) ∧
      h2.roots = h.roots := by
  refine ⟨_, gc_create_new_object_fits h o id n fit, by simp [link_object],
    by simp [link_object], by simp [link_object, Object.number_of_references], ?_, rfl, ?_,
    rfl⟩
  · intro q hq
    simp only [link_object, Function.update_same] at hq
    exact (List.mem_replicate.mp hq).2
  · intro p hp
    have : p ≠ o := fun c => fresh (c ▸ hp)
    simp [link_object, Function.update_noteq this]

/-- C13 on the code: for `num_references = 2^61` the size computation wraps,
`total` is `sizeof(Object)`, so `malloc(16)` succeeds and `memset` has length
0: the header announces 2^61 slots and the block holds none.  No object with
`n` empty slots results; for out-degrees whose size does not wrap (as 3 here)
the object has its slots. -/
theorem gc_create_new_object_wraps :
    (create_block 1 2305843009213693952).size = sizeof_Object ∧
    (create_block 1 2305843009213693952).number_of_references = 2305843009213693952 ∧
    (create_block 1 2305843009213693952).slots = [] ∧
    ¬ slots_fit 2305843009213693952 ∧
    (gc_create_new_object gc_init 1 1 2305843009213693952).isNone = true ∧
    (create_block 1 3).slots = [0, 0, 0] ∧
    ((gc_create_new_object gc_init 1 1 3).map (fun h => (h.objects 1).references)) =
      some [0, 0, 0] :=
  ⟨by decide, rfl, by decide, by decide,
    by rw [gc_create_new_object_none gc_init 1 1 _ (by decide)]; rfl,
    by decide, by decide⟩

/-! ## The Root Set invariant -/

theorem gc_add_root_same (h : Heap) (obj : Ptr) (c : obj = 0 ∨ obj ∈ h.roots.entries) :
    gc_add_root h obj = h := by
  unfold gc_add_root
  by_cases o0 : obj = 0
  · rw [if_pos o0]
  · rw [if_neg o0, if_pos (c.resolve_left o0)]

theorem swap_remove_perm (es : List Ptr) (obj : Ptr) (pr : obj ∈ es) :
    List.Perm ((es.set (es.indexOf obj) (es.getLastD 0)).dropLast) (es.erase obj) := by
  obtain ⟨l1, l2, rfl, n1⟩ := List.eq_append_cons_of_mem pr
  have idx : List.indexOf obj (l1 ++ obj :: l2) = l1.length := by
    rw [List.indexOf_append_of_not_mem n1, List.indexOf_cons_self, Nat.add_zero]
  have er : (l1 ++ obj :: l2).erase obj = l1 ++ l2 := by
    rw [List.erase_append_right _ n1, List.erase_cons_head]
  rw [idx, List.set_append_right _ _ (le_refl _), Nat.sub_self, List.set_cons_zero, er]
  rcases List.eq_nil_or_concat l2 with rfl | ⟨l3, z, rfl⟩
  · simp only [List.getLastD_concat, List.dropLast_concat, List.append_nil]
    exact List.Perm.refl _
  · simp only [List.concat_eq_append]
    have hz : (l1 ++ obj :: (l3 ++ [z])).getLastD 0 = z := by
      rw [show l1 ++ obj :: (l3 ++ [z]) = (l1 ++ obj :: l3) ++ [z] by simp]
      exact List.getLastD_concat _ _ _
    rw [hz, show l1 ++ z :: (l3 ++ [z]) = (l1 ++ z :: l3) ++ [z] by simp, List.dropLast_concat]
    refine List.Perm.append_left l1 ?_
    exact (List.perm_append_singleton z l3).symm

theorem gc_remove_root_frame (h : Heap) (obj : Ptr) :
    (gc_remove_root h obj).head = h.head ∧ (gc_remove_root h obj).objects = h.objects := by
  unfold gc_remove_root
  simp only
  split
  · exact ⟨rfl, rfl⟩
  · exact ⟨rfl, rfl⟩

theorem root_set_inv_add_root {h : Heap} (inv : RootSetInv h) (obj : Ptr) :
    RootSetInv (gc_add_root h obj) := by
  by_cases c : obj = 0 ∨ obj ∈ h.roots.entries
  · rw [gc_add_root_same h obj c]
    exact inv
  · rw [not_or] at c
    obtain ⟨e1, _, e3⟩ := gc_add_root_new h obj inv.valid c.1 c.2
    refine ⟨e3, ?_, ?_⟩
    · rw [e1, List.nodup_append]
      refine ⟨inv.nodup, List.nodup_singleton obj, fun a ha hb => ?_⟩
      rw [List.mem_singleton] at hb
      exact c.2 (hb ▸ ha)
    · rw [e1, List.mem_append, List.mem_singleton]
      rintro (a | a)
      · exact inv.nonnull a
      · exact c.1 a.symm

theorem root_set_inv_remove_root {h : Heap} (inv : RootSetInv h) (obj : Ptr) :
    RootSetInv (gc_remove_root h obj) := by
  by_cases pr : obj ∈ h.roots.entries
  · obtain ⟨e1, e2, e3, _, _⟩ := gc_remove_root_entries h obj inv.valid pr
    have perm := swap_remove_perm h.roots.entries obj pr
    rw [← e1] at perm
    refine ⟨?_, ?_, ?_⟩
    · have il := List.indexOf_lt_length.mpr pr
      have e : gc_remove_root h obj = { h with roots := { h.roots with
          items := h.roots.items.set (h.roots.entries.indexOf obj)
            (h.roots.items.getD (h.roots.count - 1) 0)
          count := h.roots.count - 1 } } := by
        unfold gc_remove_root
        simp only
        rw [if_pos il]
      rw [e]
      refine ⟨?_, ?_⟩
      · show List.length _ = h.roots.capacity
        rw [List.length_set]; exact inv.valid.1
      · show h.roots.count - 1 ≤ h.roots.capacity
        exact (Nat.sub_le _ _).trans inv.valid.2
    · exact perm.nodup_iff.mpr (inv.nodup.erase obj)
    · intro c
      exact inv.nonnull (List.mem_of_mem_erase (perm.mem_iff.mp c))
  · rw [gc_remove_root_absent h obj pr]
    exact inv


theorem root_set_inv_of_roots {h h2 : Heap} (e : h2.roots = h.roots) (inv : RootSetInv h) :
    RootSetInv h2 :=
  ⟨e ▸ inv.valid, e ▸ inv.nodup, e ▸ inv.nonnull⟩

theorem collect_ext (h h2 : Heap) (e : collect h = .done h2) :
    ∃ h1, gc_mark_root_set h = .done h1 ∧ h2 = gc_sweep h1 := by
  unfold collect at e
  cases hm : gc_mark_root_set h with
  | done h1 =>
    rw [hm] at e
    exact ⟨h1, rfl, (Outcome.done.inj e).symm⟩
  | fault => rw [hm] at e; exact absurd e (by simp)
  | timeout => rw [hm] at e; exact absurd e (by simp)

theorem step_mark_root_set {h h2 : Heap} (e : step h .mark_root_set = some h2) :
    gc_mark_root_set h = .done h2 := by
  simp only [step] at e
  cases hm : gc_mark_root_set h with
  | done h1 => rw [hm] at e; simp only [Option.some.injEq] at e; rw [e]
  | fault => rw [hm] at e; exact absurd e (by simp)
  | timeout => rw [hm] at e; exact absurd e (by simp)

theorem step_collect {h h2 : Heap} (e : step h .collect = some h2) :
    collect h = .done h2 := by
  simp only [step] at e
  cases hm : collect h with
  | done h1 => rw [hm] at e; simp only [Option.some.injEq] at e; rw [e]
  | fault => rw [hm] at e; exact absurd e (by simp)
  | timeout => rw [hm] at e; exact absurd e (by simp)

theorem step_create {h h2 : Heap} {o : Ptr} {id : Int} {n : Nat}
    (e : step h (.create o id n) = some h2) :
    o ≠ 0 ∧ o ∉ h.head ∧
      h2 = link_object h o { id := id, marked := false, references := List.replicate n 0 } := by
  simp only [step] at e
  by_cases g : o ≠ 0 ∧ o ∉ h.head
  · rw [if_pos g] at e
    exact ⟨g.1, g.2, gc_create_new_object_some e⟩
  · rw [if_neg g] at e
    exact absurd e (by simp)

theorem step_set_edge {h h2 : Heap} {obj : Ptr} {i : Nat} {t : Ptr}
    (e : step h (.set_edge obj i t) = some h2) : h2 = set_edge h obj i t := by
  simp only [step] at e
  split at e
  · exact (Option.some.inj e).symm
  · exact absurd e (by simp)

theorem root_set_inv_step {h h2 : Heap} (inv : RootSetInv h) (op : Op)
    (e : step h op = some h2) : RootSetInv h2 := by
  cases op with
  | create o id n =>
    obtain ⟨_, _, e2⟩ := step_create e
    exact root_set_inv_of_roots (by rw [e2]; rfl) inv
  | set_edge obj i t =>
    exact root_set_inv_of_roots (by rw [step_set_edge e]; rfl) inv
  | add_root obj =>
    have : h2 = gc_add_root h obj := (Option.some.inj e).symm
    rw [this]; exact root_set_inv_add_root inv obj
  | remove_root obj =>
    have : h2 = gc_remove_root h obj := (Option.some.inj e).symm
    rw [this]; exact root_set_inv_remove_root inv obj
  | mark_root_set =>
    exact root_set_inv_of_roots (gc_mark_root_set_spec h h2 (step_mark_root_set e)).ext.roots inv
  | sweep =>
    have : h2 = gc_sweep h := (Option.some.inj e).symm
    exact root_set_inv_of_roots (by rw [this]; rfl) inv
  | collect =>
    obtain ⟨h1, e1, e2⟩ := collect_ext h h2 (step_collect e)
    exact root_set_inv_of_roots
      (by rw [e2]; exact (gc_mark_root_set_spec h h1 e1).ext.roots) inv

theorem root_set_inv_init : RootSetInv gc_init :=
  ⟨by decide, by decide, by decide⟩

theorem reachable_root_set_inv {ok : Heap → Op → Prop} {h : Heap} (r : Reachable ok h) :
    RootSetInv h := by
  induction r with
  | init => exact root_set_inv_init
  | next op _ _ e ih => exact root_set_inv_step ih op e

theorem gc_sweep_unmarked (h : Heap) : AllUnmarked (gc_sweep h) := by
  intro p hp
  exact sweep_chain_marked _ _ p ((gc_sweep_mem h p).mp hp).1

theorem all_unmarked_create {h : Heap} (um : AllUnmarked h) (o : Ptr) (id : Int) (n : Nat) :
    AllUnmarked (link_object h o
      { id := id, marked := false, references := List.replicate n 0 }) := by
  intro p hp
  by_cases c : p = o
  · subst c; simp [link_object]
  · have hp2 : p ∈ h.head := (List.mem_cons.mp hp).resolve_left c
    simp only [link_object, Function.update_noteq c]
    exact um p hp2

theorem all_unmarked_set_edge {h : Heap} (um : AllUnmarked h) (obj : Ptr) (i : Nat) (t : Ptr) :
    AllUnmarked (set_edge h obj i t) := by
  intro p hp
  by_cases c : p = obj
  · subst c
    simp only [GC.set_edge, Function.update_same]
    exact um p hp
  · simp only [GC.set_edge, Function.update_noteq c]
    exact um p hp

theorem all_unmarked_step {h h2 : Heap} (um : AllUnmarked h) (op : Op)
    (ok : between_cycles_op h op) (e : step h op = some h2) : AllUnmarked h2 := by
  cases op with
  | create o id n =>
    obtain ⟨_, _, e2⟩ := step_create e
    rw [e2]; exact all_unmarked_create um o id n
  | set_edge obj i t =>
    rw [step_set_edge e]; exact all_unmarked_set_edge um obj i t
  | add_root obj =>
    have : h2 = gc_add_root h obj := (Option.some.inj e).symm
    intro p hp
    rw [this] at hp ⊢
    rw [(gc_add_root_frame h obj).2]
    exact um p ((gc_add_root_frame h obj).1 ▸ hp)
  | remove_root obj =>
    have : h2 = gc_remove_root h obj := (Option.some.inj e).symm
    intro p hp
    rw [this] at hp ⊢
    rw [(gc_remove_root_frame h obj).2]
    exact um p ((gc_remove_root_frame h obj).1 ▸ hp)
  | mark_root_set => exact absurd ok id
  | sweep => exact absurd ok id
  | collect =>
    obtain ⟨h1, _, e2⟩ := collect_ext h h2 (step_collect e)
    rw [e2]; exact gc_sweep_unmarked h1

theorem step_of_collect {h h2 : Heap} (e : collect h = .done h2) :
    step h .collect = some h2 := by
  simp only [step, e]

theorem main_heap_reachable : Reachable between_cycles_op (main_heap 10 20 30 40) :=
  Reachable.next (.add_root 10)
    (Reachable.next (.set_edge 20 0 40)
      (Reachable.next (.set_edge 10 1 30)
        (Reachable.next (.set_edge 10 0 20)
          (Reachable.next (.create 40 4 0)
            (Reachable.next (.create 30 3 0)
              (Reachable.next (.create 20 2 1)
                (Reachable.next (.create 10 1 2) Reachable.init trivial rfl)
                trivial rfl)
              trivial rfl)
            trivial rfl)
          trivial rfl)
        trivial rfl)
      trivial rfl)
    trivial rfl

theorem destroy_chain_head : ∀ (f : Nat) (s : RawHeap) (cur : Ptr) (s2 : RawHeap),
    destroy_chain f s cur = .done s2 → s2.head = s.head ∧ s2.roots = s.roots := by
  intro f
  induction f with
  | zero => intro s cur s2 e; simp [destroy_chain] at e
  | succ f ih =>
    intro s cur s2 e
    by_cases c0 : cur = 0
    · simp only [destroy_chain, c0, if_true, Outcome.done.injEq] at e
      subst e
      exact ⟨rfl, rfl⟩
    · by_cases lv : cur ∈ s.live_nodes
      · simp only [destroy_chain, c0, lv, if_true, if_false] at e
        exact ih { s with
          live_objects := s.live_objects.erase (s.nodes cur).object
          live_nodes := s.live_nodes.erase cur } _ _ e
      · simp [destroy_chain, c0, lv] at e

theorem gc_destroy_head (s s2 : RawHeap) (e : gc_destroy s = .done s2) :
    s2.head = s.head ∧ s2.roots = { items := [], count := 0, capacity := 0 } := by
  unfold gc_destroy at e
  cases hd : destroy_chain (s.live_nodes.length + 1) s s.head with
  | done s1 =>
    rw [hd] at e
    simp only [Outcome.done.injEq] at e
    subst e
    exact ⟨(destroy_chain_head _ _ _ _ hd).1, rfl⟩
  | fault => rw [hd] at e; exact absurd e (by simp)
  | timeout => rw [hd] at e; exact absurd e (by simp)

/-- C15 on the code: after `gc_init(); gc_create_new_object(&a, 1, 0);
gc_destroy();` the node and the object are freed and the Root Set is reset,
but `gc_heap.head` still holds the address of the freed node, and the
iteration from it reads freed memory. -/
theorem gc_destroy_dangling_head :
    one_object_raw.head = 100 ∧
    iterate_chain 2 one_object_raw one_object_raw.head = .done [1] ∧
    ∃ s2, gc_destroy one_object_raw = .done s2 ∧
      s2.head = 100 ∧ s2.live_nodes = [] ∧ s2.live_objects = [] ∧
      s2.roots = { items := [], count := 0, capacity := 0 } ∧
      (∀ f, iterate_chain (f + 1) s2 s2.head = .fault) :=
  ⟨rfl, by decide, _, rfl, rfl, by decide, by decide, rfl, fun _ => rfl⟩

/-! ## Frame of a collection -/

/-- C16: `gc_mark_root_set` and `gc_sweep` leave the Root Set (items, count,
capacity) as it was, on every heap state, also when the sweep removes an
object that a Root Set entry refers to; the marker returns whenever roots and
edge slots refer to registered objects. -/
theorem collection_keeps_roots (h : Heap) :
    (∀ h1, gc_mark_root_set h = .done h1 → h1.roots = h.roots) ∧
    (gc_sweep h).roots = h.roots ∧
    (∀ h2, collect h = .done h2 → h2.roots = h.roots) ∧
    (EdgesRegistered h → RootsRegistered h →
      ∃ h1, gc_mark_root_set h = .done h1 ∧ h1.roots = h.roots ∧
        (gc_sweep h1).roots = h.roots) := by
  have mark : ∀ h1, gc_mark_root_set h = .done h1 → h1.roots = h.roots :=
    fun h1 e => (gc_mark_root_set_spec h h1 e).ext.roots
  refine ⟨mark, rfl, fun h2 e => ?_, fun he hr => ?_⟩
  · obtain ⟨h1, e1, e2⟩ := collect_ext h h2 e
    rw [e2]
    exact mark h1 e1
  · obtain ⟨h1, e1⟩ := gc_mark_root_set_done h he hr
    exact ⟨h1, e1, mark h1 e1, mark h1 e1⟩

/-- Witness of C16: a sweep of the heap of `main` without a mark phase frees
the object of the root `10`; the Root Set still holds `10`. -/
theorem collection_keeps_roots_witness :
    (gc_sweep (main_heap 10 20 30 40)).roots = (main_heap 10 20 30 40).roots ∧
    (10 : Ptr) ∈ (gc_sweep (main_heap 10 20 30 40)).roots.entries ∧
    (10 : Ptr) ∉ (gc_sweep (main_heap 10 20 30 40)).head ∧
    ∃ h1, gc_mark_root_set (main_heap 10 20 30 40) = .done h1 ∧
      h1.roots = (main_heap 10 20 30 40).roots ∧
      (gc_sweep h1).roots = (main_heap 10 20 30 40).roots :=
  ⟨(collection_keeps_roots (main_heap 10 20 30 40)).2.1, by decide, by decide,
    (collection_keeps_roots (main_heap 10 20 30 40)).2.2.2 (by decide) (by decide)⟩

/-- The frame of a marker run from `h` to `h2`: registry and Root Set as they
were, every object with its id, out-degree and slots, no mark flag cleared. -/
theorem mark_ext_frame {h h2 : Heap} (a : MarkExt h h2) :
    h2.head = h.head ∧ h2.roots = h.roots ∧
    ∀ p, (h2.objects p).id = (h.objects p).id ∧
      (h2.objects p).number_of_references = (h.objects p).number_of_references ∧
      (h2.objects p).references = (h.objects p).references ∧
      ((h.objects p).marked = true → (h2.objects p).marked = true) ∧
      ((h2.objects p).marked = (h.objects p).marked ∨
        ((h.objects p).marked = false ∧ (h2.objects p).marked = true)) := by
  refine ⟨a.head, a.roots, fun p => ⟨a.id_eq p, ?_, a.references p, a.marks_mono, ?_⟩⟩
  · unfold Object.number_of_references
    rw [a.references p]
  · cases m : (h.objects p).marked with
    | true => exact Or.inl (a.marks_mono m)
    | false =>
      cases m2 : (h2.objects p).marked with
      | true => exact Or.inr ⟨rfl, rfl⟩
      | false => exact Or.inl rfl

/-- C19: `gc_mark` and `gc_mark_root_set` change mark flags only, and only from
false to true: whenever they return, the registry (membership and order) and
the Root Set are as before, every object has its id, out-degree and edge slots,
and no mark flag that was set is cleared; they return whenever the pointers
they follow refer to registered objects. -/
theorem mark_phase_frame (h : Heap) :
    (∀ obj h2, gc_mark h obj = .done h2 →
      h2.head = h.head ∧ h2.roots = h.roots ∧
      ∀ p, (h2.objects p).id = (h.objects p).id ∧
        (h2.objects p).number_of_references = (h.objects p).number_of_references ∧
        (h2.objects p).references = (h.objects p).references ∧
        ((h.objects p).marked = true → (h2.objects p).marked = true) ∧
        ((h2.objects p).marked = (h.objects p).marked ∨
          ((h.objects p).marked = false ∧ (h2.objects p).marked = true))) ∧
    (∀ h2, gc_mark_root_set h = .done h2 →
      h2.head = h.head ∧ h2.roots = h.roots ∧
      ∀ p, (h2.objects p).id = (h.objects p).id ∧
        (h2.objects p).number_of_references = (h.objects p).number_of_references ∧
        (h2.objects p).references = (h.objects p).references ∧
        ((h.objects p).marked = true → (h2.objects p).marked = true) ∧
        ((h2.objects p).marked = (h.objects p).marked ∨
          ((h.objects p).marked = false ∧ (h2.objects p).marked = true))) ∧
    (EdgesRegistered h → (∀ obj, obj = 0 ∨ obj ∈ h.head → ∃ h2, gc_mark h obj = .done h2)) ∧
    (EdgesRegistered h → RootsRegistered h → ∃ h2, gc_mark_root_set h = .done h2) :=
  ⟨fun obj h2 e => mark_ext_frame (gc_mark_spec h obj h2 e).ext,
    fun h2 e => mark_ext_frame (gc_mark_root_set_spec h h2 e).ext,
    fun he obj ho => gc_mark_done h obj he ho,
    fun he hr => gc_mark_root_set_done h he hr⟩

/-- Witness of C19 on the heap with a reference cycle, one object marked
beforehand. -/
theorem mark_phase_frame_witness :
    EdgesRegistered (set_marked (cycle_heap 5 6 7) 7) ∧
    RootsRegistered (set_marked (cycle_heap 5 6 7) 7) ∧
    (∃ h2, gc_mark_root_set (set_marked (cycle_heap 5 6 7) 7) = .done h2) ∧
    (∃ h2, gc_mark (set_marked (cycle_heap 5 6 7) 7) 6 = .done h2) :=
  ⟨by decide, by decide,
    (mark_phase_frame (set_marked (cycle_heap 5 6 7) 7)).2.2.2 (by decide) (by decide),
    (mark_phase_frame (set_marked (cycle_heap 5 6 7) 7)).2.2.1 (by decide) 6
      (Or.inr (by decide))⟩

/-! ## The general marking lemma -/

theorem white_marked {h h2 : Heap} {obj : Ptr} (S : MarkSpec h obj h2) {x : Ptr}
    (w : White h obj x) : (h2.objects x).marked = true ∧ (h.objects x).marked = false := by
  obtain ⟨o0, _, um, path⟩ := w
  induction path with
  | refl => exact ⟨S.self o0, um⟩
  | tail _ e ih => exact ⟨S.closed _ ih.1 ih.2 _ e.2.1, e.2.2⟩

/-- C18: for every registry whose edge slots refer to registered objects, every
assignment of mark flags and every `obj` that is null or registered,
`gc_mark(obj)` returns, and the objects marked afterwards are those marked
before together with exactly those reached from `obj` along a path of
non-empty slots whose nodes, `obj` and the end included, were all unmarked
before; a null or already marked `obj` changes nothing. -/
theorem gc_mark_white_path (h : Heap) (obj : Ptr) (he : EdgesRegistered h)
    (ho : obj = 0 ∨ obj ∈ h.head) :
    (∃ h2, gc_mark h obj = .done h2 ∧
      ∀ x, ((h2.objects x).marked = true ↔
        ((h.objects x).marked = true ∨ White h obj x))) ∧
    (obj = 0 ∨ (h.objects obj).marked = true → gc_mark h obj = .done h) := by
  constructor
  · obtain ⟨h2, e⟩ := gc_mark_done h obj he ho
    have S := gc_mark_spec h obj h2 e
    refine ⟨h2, e, fun x => ⟨fun m2 => ?_, fun c => ?_⟩⟩
    · cases m : (h.objects x).marked with
      | true => exact Or.inl rfl
      | false => exact Or.inr (S.sound x m2 m)
    · rcases c with m | w
      · exact S.ext.marks_mono m
      · exact (white_marked S w).1
  · intro c
    unfold gc_mark gc_markF
    by_cases o0 : obj = 0
    · simp [o0]
    · have reg := ho.resolve_left o0
      have mk := c.resolve_left o0
      simp [o0, reg, mk]

/-- Witness of C18 on the heap of `main` with the object at 20 marked
beforehand, marking from 10. -/
theorem gc_mark_white_path_witness :
    EdgesRegistered (set_marked (main_heap 10 20 30 40) 20) ∧
    (10 : Ptr) ∈ (set_marked (main_heap 10 20 30 40) 20).head ∧
    (gc_mark (set_marked (main_heap 10 20 30 40) 20) 10).map
        (fun h2 => [10, 20, 30, 40].map (fun p => (h2.objects p).marked)) =
      .done [true, true, true, false] ∧
    ∃ h2, gc_mark (set_marked (main_heap 10 20 30 40) 20) 10 = .done h2 ∧
      ∀ x, ((h2.objects x).marked = true ↔
        (((set_marked (main_heap 10 20 30 40) 20).objects x).marked = true ∨
          White (set_marked (main_heap 10 20 30 40) 20) 10 x)) :=
  ⟨by decide, by decide, by decide,
    (gc_mark_white_path (set_marked (main_heap 10 20 30 40) 20) 10 (by decide)
      (Or.inr (by decide))).1⟩

/-! ## Identifiers -/

theorem registry_ids_sweep (h : Heap) (nd : h.head.Nodup) :
    List.Sublist (registry_ids (gc_sweep h)) (registry_ids h) := by
  obtain ⟨e1, e2⟩ := sweep_chain_nodup h.head h.objects nd
  have ids : registry_ids (gc_sweep h) =
      (h.head.filter (fun p => (h.objects p).marked)).map (fun p => (h.objects p).id) := by
    unfold registry_ids
    show List.map _ (sweep_chain h.objects h.head).1 = _
    rw [e1]
    apply List.map_congr_left
    intro p hp
    obtain ⟨hp1, m⟩ := List.mem_filter.mp hp
    have := e2 p hp1
    simp only [m, if_true] at this
    show ((sweep_chain h.objects h.head).2 p).id = _
    rw [this]
  rw [ids]
  exact (List.filter_sublist _).map _

theorem registry_ids_ext {h h2 : Heap} (a : MarkExt h h2) :
    registry_ids h2 = registry_ids h := by
  unfold registry_ids
  rw [a.head]
  exact List.map_congr_left (fun p _ => a.id_eq p)

theorem registry_ids_frame {h h2 : Heap} (e1 : h2.head = h.head)
    (e2 : h2.objects = h.objects) : registry_ids h2 = registry_ids h := by
  unfold registry_ids
  rw [e1, e2]

theorem ids_distinct_head_nodup {h : Heap} (d : IdsDistinct h) : h.head.Nodup :=
  List.Nodup.of_map _ d

theorem ids_distinct_step {h h2 : Heap} (d : IdsDistinct h) (op : Op)
    (ok : fresh_id_op h op) (e : step h op = some h2) : IdsDistinct h2 := by
  cases op with
  | create o id n =>
    obtain ⟨_, fresh, e2⟩ := step_create e
    have ids : registry_ids h2 = id :: registry_ids h := by
      rw [e2]
      unfold registry_ids
      simp only [link_object, List.map_cons, Function.update_same]
      congr 1
      apply List.map_congr_left
      intro p hp
      have : p ≠ o := fun c => fresh (c ▸ hp)
      rw [Function.update_noteq this]
    unfold IdsDistinct
    rw [ids]
    exact List.nodup_cons.mpr ⟨ok, d⟩
  | set_edge obj i t => exact absurd ok id
  | add_root obj =>
    have : h2 = gc_add_root h obj := (Option.some.inj e).symm
    unfold IdsDistinct
    rw [this, registry_ids_frame (gc_add_root_frame h obj).1 (gc_add_root_frame h obj).2]
    exact d
  | remove_root obj =>
    have : h2 = gc_remove_root h obj := (Option.some.inj e).symm
    unfold IdsDistinct
    rw [this, registry_ids_frame (gc_remove_root_frame h obj).1 (gc_remove_root_frame h obj).2]
    exact d
  | mark_root_set => exact absurd ok id
  | sweep => exact absurd ok id
  | collect =>
    obtain ⟨h1, e1, e2⟩ := collect_ext h h2 (step_collect e)
    have E := (gc_mark_root_set_spec h h1 e1).ext
    have nd1 : h1.head.Nodup := E.head ▸ ids_distinct_head_nodup d
    have sub := registry_ids_sweep h1 nd1
    rw [registry_ids_ext E, ← e2] at sub
    exact List.Nodup.sublist sub d

end GC
